import Mathlib

/-! texproj: word aggregation, resolution and paint order

A shallow embedding of `main.go` of `zean00/texproj`.

Conventions of the embedding

* Go `int` (64 bits) is modelled by `Int`.  The sum of two position signals
  wraps around as in Go (`addInt`).  A count is the sum of the counts of the
  texels of a slice and is kept exact; a statement on a record of arbitrary
  count carries the bound under which the code does not wrap.  Go's `/` on
  `int` truncates toward zero and is modelled by `Int.tdiv`.
* Go `string` is modelled by `String` (the text is taken to be valid UTF-8);
  the functions of package `strings` that the program calls are given on the
  list of runes of the string.
* A `float64` is kept as its IEEE-754 bit pattern: coordinates are stored and
  copied, and the two float expressions of the program,
  `int(math.Sqrt(float64(shift)))` and `int(c * float64(dim))`, are
  parameters.  The first one is also given by the rules of IEEE-754
  (`goSqrtInt`), which is an instance of the parameter.
* What the program takes from outside its own source is a parameter: the
  case table of package `unicode`, the digest of `blake2b`, the order in
  which `range` visits a map, the permutation `sort.Sort` performs, the two
  float expressions, `strconv.ParseFloat` (structure `Env`), and the two
  queries of the Levenshtein trie (structure `Trie`).
* An `image.RGBA` is its rectangle together with the colour held at each
  position; `Set` and `RGBAAt` are given on that.
* A function that can panic on an index out of range returns an `Option`,
  `none` standing for the panic.
-/

namespace Texproj

/-! ## Data model -/

/-- A Go `float64`, held as its bit pattern. -/
structure float64 where
  bits : Nat
  deriving DecidableEq, Repr

/-- The struct `point` of `main.go`. -/
structure point where
  x : float64
  y : float64
  deriving DecidableEq, Repr

/-- The struct `texel` of `main.go`. -/
structure texel where
  word : String
  count : Int
  seq : Int
  coord : point
  color : List Nat
  deriving DecidableEq, Repr

/-- The zero value of `texel`, which a Go map returns for an absent key. -/
def texel.zero : texel :=
  { word := "", count := 0, seq := 0, coord := ⟨⟨0⟩, ⟨0⟩⟩, color := [] }

/-! ## Go maps from `string` to `texel` -/

/-- A `map[string]texel`: the list of its entries, one per key. -/
abbrev GoMap := List (String × texel)

/-- The entry stored under key `k`, if there is one. -/
def GoMap.find (m : GoMap) (k : String) : Option texel :=
  match m with
  | [] => none
  | (k', v) :: rest => if k' = k then some v else GoMap.find rest k

/-- The Go expression `m[k]`: the stored value, or the zero value. -/
def GoMap.get (m : GoMap) (k : String) : texel :=
  (GoMap.find m k).getD texel.zero

/-- The Go statement `m[k] = v`. -/
def GoMap.set (m : GoMap) (k : String) (v : texel) : GoMap :=
  match m with
  | [] => [(k, v)]
  | (k', v') :: rest =>
    if k' = k then (k, v) :: rest else (k', v') :: GoMap.set rest k v

/-! ## Aggregation: the first loop of `countTexel` -/

/-- The sum `a + b` of two values of Go's `int`, which wraps around at `2^63`
(two's complement, 64 bits).  A Lean integer outside the range of `int` is no
value of the program; on such arguments the sum is left exact. -/
def addInt (a b : Int) : Int :=
  if (-9223372036854775808 ≤ a ∧ a < 9223372036854775808) ∧
      (-9223372036854775808 ≤ b ∧ b < 9223372036854775808) then
    (a + b + 9223372036854775808) % 18446744073709551616 - 9223372036854775808
  else a + b

/-- One iteration of `for _, t := range texs` in `countTexel`:
`t.seq = (t.seq + words[t.word].seq) / 2`, `t.count += words[t.word].count`,
`words[t.word] = t`. -/
def foldStep (words : GoMap) (t : texel) : GoMap :=
  let t1 := { t with seq := Int.tdiv (addInt t.seq (GoMap.get words t.word).seq) 2 }
  let t2 := { t1 with count := t1.count + (GoMap.get words t1.word).count }
  GoMap.set words t2.word t2

/-- The first loop of `countTexel`, started on the empty map. -/
def aggregate (texs : List texel) : GoMap :=
  texs.foldl foldStep []

/-! ## The functions of packages `strings` and `unicode` that the program calls -/

/-- Drops the leading runes of `l` that occur in `cutset`. -/
def trimLeft (cutset : List Char) : List Char → List Char
  | [] => []
  | c :: cs => if c ∈ cutset then trimLeft cutset cs else c :: cs

/-- The Go call `strings.Trim(s, cutset)`: `s` without its leading and
trailing runes that occur in `cutset`. -/
def strings.Trim (s : String) (cutset : String) : String :=
  ⟨(trimLeft cutset.data (trimLeft cutset.data s.data).reverse).reverse⟩

/-- Replaces every occurrence of the rune `old` in `l` by the runes `new`. -/
def replaceRune (old : Char) (new : List Char) : List Char → List Char
  | [] => []
  | c :: cs =>
    if c = old then new ++ replaceRune old new cs else c :: replaceRune old new cs

/-- The Go call `strings.Replace(s, old, new, -1)` for a one-rune `old`, which
is how every call site of the program uses it. -/
def strings.Replace (s : String) (old : Char) (new : String) : String :=
  ⟨replaceRune old new.data s.data⟩

/-- Splits `l` at every occurrence of the rune `sep`. -/
def splitRunes (sep : Char) : List Char → List (List Char)
  | [] => [[]]
  | c :: cs =>
    if c = sep then [] :: splitRunes sep cs
    else
      match splitRunes sep cs with
      | [] => [[c]]
      | w :: ws => (c :: w) :: ws

/-- The Go call `strings.Split(s, sep)` for a one-rune `sep`. -/
def strings.Split (s : String) (sep : Char) : List String :=
  (splitRunes sep s.data).map String.mk

/-- The Go function `unicode.ToLower`: the ASCII range is computed, every
other rune is looked up in the case table `tbl`. -/
def unicode.ToLower (tbl : Char → Char) (r : Char) : Char :=
  if r.toNat ≤ 0x7F then
    if 'A'.toNat ≤ r.toNat ∧ r.toNat ≤ 'Z'.toNat then Char.ofNat (r.toNat + 32) else r
  else tbl r

/-- The Go function `strings.ToLower`: `unicode.ToLower` on every rune. -/
def strings.ToLower (tbl : Char → Char) (s : String) : String :=
  ⟨s.data.map (unicode.ToLower tbl)⟩

/-! ## What the program takes from outside its source -/

/-- The library behaviour the program depends on. -/
structure Env where
  /-- The lookup of a rune above the ASCII range in `unicode.CaseRanges`. -/
  caseTable : Char → Char
  /-- The `blake2b` digest of the given size of the bytes of a string. -/
  blake2b : Nat → String → List Nat
  /-- The order in which `range` visits the entries of a map. -/
  mapRange : GoMap → GoMap
  /-- The rearrangement `sort.Sort` makes of a slice under a given `Less`. -/
  sortSort : (texel → texel → Bool) → List texel → List texel
  /-- The Go expression `int(math.Sqrt(float64(shift)))`. -/
  sqrtInt : Int → Int
  /-- The Go expression `int(c * float64(dim))` for a coordinate `c`. -/
  scale : float64 → Int → Int
  /-- The Go call `strconv.ParseFloat(s, 64)`; `none` when it returns an error. -/
  parseFloat : String → Option float64

/-- A node of the Levenshtein trie; its info is the `*point` that
`loadTVector` stored with the word. -/
structure TrieNode where
  info : point
  deriving DecidableEq, Repr

/-- One result of an approximate query of the trie. -/
structure QueryResult where
  Node : TrieNode
  deriving DecidableEq, Repr

/-- The global `trie`, through the two queries `countTexel` makes. -/
structure Trie where
  /-- The method `Get`: the node of a word, `none` for Go's `nil`. -/
  Get : String → Option TrieNode
  /-- The method `Levenshtein`: the results within the given distance. -/
  Levenshtein : String → Int → List QueryResult

/-! ## Sorting interface -/

/-- The method `texels.Less`, on the two elements `slice[i]` and `slice[j]`. -/
def texels.Less (a b : texel) : Bool :=
  decide (a.count < b.count)

/-- The adaptor `sort.Reverse`: its `Less(i, j)` is the wrapped `Less(j, i)`. -/
def sort.Reverse (less : texel → texel → Bool) : texel → texel → Bool :=
  fun a b => less b a

/-- The Go function `sort.IsSorted`: there is no position `i > 0` with
`Less(i, i-1)`. -/
def sort.IsSorted (less : texel → texel → Bool) : List texel → Bool
  | [] => true
  | [_] => true
  | a :: b :: rest => !less b a && sort.IsSorted less (b :: rest)

/-! ## The program -/

/-- The function `cleanWord` of `main.go`. -/
def cleanWord (env : Env) (word : String) : String :=
  let word := strings.Trim word " "
  let word := strings.Replace word '"' ""
  let word := strings.Replace word '\'' ""
  let word := strings.Replace word ',' ""
  let word := strings.Replace word '.' ""
  let word := strings.Replace word '!' ""
  let word := strings.Replace word '?' ""
  strings.ToLower env.caseTable word

/-- The function `toTexel` of `main.go`. -/
def toTexel (env : Env) (word : String) (seq : Int) : texel :=
  let word := cleanWord env word
  { texel.zero with word := word, seq := seq, count := 1 }

/-- The function `hash` of `main.go`. -/
def hash (env : Env) (s : String) (size : Nat) : List Nat :=
  env.blake2b size s

/-- One iteration of `for _, t := range words` in `countTexel`; the state is
the slice `txls` and the counter `unknown`. -/
def resolveStep (env : Env) (trie : Trie) (st : List texel × Int) (t : texel) :
    List texel × Int :=
  match trie.Get t.word with
  | some node =>
    (st.1 ++ [{ t with coord := node.info, color := hash env t.word 3 }], st.2)
  | none =>
    let qs := trie.Levenshtein t.word 3
    if h : qs.length = 0 then (st.1, st.2 + 1)
    else
      let node := (qs.get ⟨qs.length - 1, by omega⟩).Node
      (st.1 ++ [{ t with coord := node.info, color := hash env t.word 3 }], st.2)

/-- The second loop of `countTexel`, over the values of the map in the order
`range` visits them. -/
def resolveLoop (env : Env) (trie : Trie) (words : GoMap) : List texel × Int :=
  ((env.mapRange words).map Prod.snd).foldl (resolveStep env trie) ([], 0)

/-- The function `countTexel` of `main.go`. -/
def countTexel (env : Env) (trie : Trie) (texs : List texel) : List texel :=
  let words := aggregate texs
  let txls := (resolveLoop env trie words).1
  env.sortSort (sort.Reverse texels.Less) txls

/-! ### The canvas -/

/-- The struct `color.RGBA` of package `image/color`. -/
structure clr.RGBA where
  R : Nat
  G : Nat
  B : Nat
  A : Nat
  deriving DecidableEq, Repr

/-- The struct `image.Point`. -/
structure image.Point where
  X : Int
  Y : Int
  deriving DecidableEq, Repr

/-- The struct `image.Rectangle`. -/
structure image.Rectangle where
  Min : image.Point
  Max : image.Point
  deriving DecidableEq, Repr

/-- The method `Point.In`. -/
def image.Point.In (p : image.Point) (r : image.Rectangle) : Bool :=
  decide (r.Min.X ≤ p.X ∧ p.X < r.Max.X ∧ r.Min.Y ≤ p.Y ∧ p.Y < r.Max.Y)

/-- The struct `image.RGBA`: its rectangle and, for the pixel buffer, the
colour held at each position. -/
structure image.RGBA where
  Rect : image.Rectangle
  pix : Int → Int → clr.RGBA

/-- The function `mul3NonNeg` of package `image`: the product `x * y * z`,
and `-1` when an argument is negative, when one of the two 64-bit products
has a high word, or when the result does not fit an `int`. -/
def image.mul3NonNeg (x y z : Int) : Int :=
  if x < 0 ∨ y < 0 ∨ z < 0 then -1
  else if 18446744073709551616 ≤ x * y then -1
  else if 18446744073709551616 ≤ x * y * z then -1
  else if 9223372036854775808 ≤ x * y * z then -1
  else x * y * z

/-- The function `image.NewRGBA`: a canvas of zero pixels.  It panics (`none`)
with "Rectangle has huge or negative dimensions" when the length of the pixel
buffer, `mul3NonNeg(4, r.Dx(), r.Dy())`, is negative.  That the run-time
system may refuse the memory of the buffer is not part of the model. -/
def image.NewRGBA (r : image.Rectangle) : Option image.RGBA :=
  if image.mul3NonNeg 4 (r.Max.X - r.Min.X) (r.Max.Y - r.Min.Y) < 0 then none
  else some { Rect := r, pix := fun _ _ => ⟨0, 0, 0, 0⟩ }

/-- The method `(*image.RGBA).Set`: no effect outside the rectangle. -/
def image.RGBA.Set (img : image.RGBA) (x y : Int) (c : clr.RGBA) : image.RGBA :=
  if (image.Point.mk x y).In img.Rect then
    { img with pix := fun m n => if m = x ∧ n = y then c else img.pix m n }
  else img

/-- The method `(*image.RGBA).RGBAAt`: the zero colour outside the rectangle. -/
def image.RGBA.RGBAAt (img : image.RGBA) (x y : Int) : clr.RGBA :=
  if (image.Point.mk x y).In img.Rect then img.pix x y else ⟨0, 0, 0, 0⟩

/-- The values `lo, lo + 1, ..., hi - 1` that the variable of the loop
`for m := lo; m < hi; m++` takes. -/
def intRange (lo hi : Int) : List Int :=
  (List.range (hi - lo).toNat).map (fun (k : Nat) => lo + (k : Int))

/-- The function `drawArea` of `main.go`. -/
def drawArea (env : Env) (img : image.RGBA) (x y pixel shift : Int) (c : clr.RGBA) :
    image.RGBA :=
  let x := x + env.sqrtInt shift
  let y := y + env.sqrtInt shift
  (intRange (x - pixel) (x + pixel)).foldl
    (fun img m =>
      (intRange (y - pixel) (y + pixel)).foldl (fun img n => img.Set m n c) img)
    img

/-- The composite literal `clr.RGBA{t.color[0], t.color[1], t.color[2], 255}`
of `paintImage`; `none` when an index is out of range. -/
def paintColor (t : texel) : Option clr.RGBA :=
  match t.color with
  | r :: g :: b :: _ => some ⟨r, g, b, 255⟩
  | _ => none

/-- One iteration of `for _, t := range data` in `paintImage`. -/
def paintStep (env : Env) (dim : Int) (img : image.RGBA) (t : texel) : Option image.RGBA :=
  match paintColor t with
  | none => none
  | some c =>
    let px := Int.tdiv t.count 4
    let x := env.scale t.coord.x dim
    let y := env.scale t.coord.y dim
    some (drawArea env img x y px t.seq c)

/-- The loop of `paintImage` from a given canvas. -/
def paintLoop (env : Env) (dim : Int) : image.RGBA → List texel → Option image.RGBA
  | img, [] => some img
  | img, t :: rest =>
    match paintStep env dim img t with
    | none => none
    | some img' => paintLoop env dim img' rest

/-- The function `paintImage` of `main.go`; the result is the canvas that is
encoded into the file, `none` when the function panics. -/
def paintImage (env : Env) (data : List texel) (dim : Int) : Option image.RGBA :=
  match image.NewRGBA ⟨⟨0, 0⟩, ⟨dim, dim⟩⟩ with
  | none => none
  | some myimage => paintLoop env dim myimage data

/-- The function `loadArticle` of `main.go`, on the content of the file. -/
def loadArticle (dat : String) : List String :=
  let txt := dat
  let txt := strings.Replace txt '-' " "
  let txt := strings.Replace txt '.' " "
  let txt := strings.Replace txt ',' " "
  let txt := strings.Replace txt '\n' " "
  strings.Split txt ' '

/-- One iteration of `for _, w := range words` in `process`; the state is the
list of argument pairs with which `toTexel` has been called and the counter
`i`. -/
def processStep (st : List (String × Int) × Int) (w : String) :
    List (String × Int) × Int :=
  if w = " " ∨ w = "\n" ∨ w = "" then st
  else (st.1 ++ [(w, st.2)], st.2 + 1)

/-- The calls `toTexel(w, i)` that the loop of `process` makes, in order. -/
def toTexelCalls (words : List String) : List (String × Int) :=
  (words.foldl processStep ([], 0)).1

/-- The slice `texs` that `process` hands to `countTexel`. -/
def processTexels (env : Env) (words : List String) : List texel :=
  (toTexelCalls words).map (fun p => toTexel env p.1 p.2)

/-- The function `process` of `main.go`: the slice it hands to `paintImage`
is painted on a canvas of side `res`; the result is the canvas that is
encoded into the output file, `none` when the run panics. -/
def process (env : Env) (trie : Trie) (dat : String) (res : Int) : Option image.RGBA :=
  let words := loadArticle dat
  let texs := processTexels env words
  let texs := countTexel env trie texs
  paintImage env texs res

/-- One iteration of the scanning loop of `loadTVector`; the state is the list
of the pairs added to the trie and the counter `i`.  The result is `none`
when the iteration panics on an index out of range. -/
def loadStep (env : Env) (st : List (String × point) × Int) (line : String) :
    Option (List (String × point) × Int) :=
  match strings.Split line ' ' with
  | [] => none
  | [_] => none
  | w :: f1 :: rest =>
    match env.parseFloat f1 with
    | none => some st
    | some x =>
      match rest with
      | [] => none
      | f2 :: _ =>
        match env.parseFloat f2 with
        | none => some st
        | some y => some (st.1 ++ [(w, ⟨x, y⟩)], st.2 + 1)

/-- The scanning loop of `loadTVector` from a given state. -/
def loadLoop (env : Env) :
    List (String × point) × Int → List String → Option (List (String × point) × Int)
  | st, [] => some st
  | st, line :: rest =>
    match loadStep env st line with
    | none => none
    | some st' => loadLoop env st' rest

/-- The function `loadTVector` of `main.go`, on the lines of the file. -/
def loadTVector (env : Env) (lines : List String) : Option (List (String × point) × Int) :=
  loadLoop env ([], 0) lines

/-! ## Conditions on the environment -/

/-- The case table sends a rune above the ASCII range to a rune above the
ASCII range or to a lower-case ASCII letter. -/
def Env.CaseTableOK (env : Env) : Prop :=
  ∀ r : Char, 0x7F < r.toNat →
    0x7F < (env.caseTable r).toNat ∨
      ('a'.toNat ≤ (env.caseTable r).toNat ∧ (env.caseTable r).toNat ≤ 'z'.toNat)

/-- The statement `range` visits every entry of the map exactly once. -/
def Env.RangeOK (env : Env) : Prop :=
  ∀ m : GoMap, (env.mapRange m).Perm m

/-- The call `sort.Sort(sort.Reverse(txls))` rearranges the slice and leaves
it sorted in the sense of `sort.IsSorted`. -/
def Env.SortOK (env : Env) : Prop :=
  ∀ l : List texel,
    (env.sortSort (sort.Reverse texels.Less) l).Perm l ∧
      sort.IsSorted (sort.Reverse texels.Less)
        (env.sortSort (sort.Reverse texels.Less) l) = true

/-- The conversion of the square root of an `int` `s` with `0 ≤ s < 2^52` is
the integer square root of `s`. -/
def Env.SqrtOK (env : Env) : Prop :=
  ∀ s : Int, 0 ≤ s → s < 4503599627370496 → env.sqrtInt s = Int.sqrt s

/-- The conversion `float64(n)` of a non-negative `int`: `n` rounded to 53
significant bits, to nearest and to even on a tie.  The result is given as
the integer the float is equal to. -/
def roundFloat64 (n : Nat) : Nat :=
  if n < 9007199254740992 then n
  else
    let sh := Nat.log 2 n - 52
    let q := n / 2 ^ sh
    let rem := n % 2 ^ sh
    if rem * 2 < 2 ^ sh ∨ (rem * 2 = 2 ^ sh ∧ q % 2 = 0) then q * 2 ^ sh
    else (q + 1) * 2 ^ sh

/-- The Go expression `int(math.Sqrt(float64(n)))` for `0 ≤ n < 2^63`, by the
rules of IEEE-754: with `f = float64(n)` and `2^k ≤ sqrt f < 2^(k+1)`, the
square root is rounded to the nearest multiple `M * 2^(k-52)` of the unit in
the last place (a tie cannot occur), and the conversion to `int` truncates.
Here `q` is the integer part of `sqrt f * 2^(52-k)`. -/
def goSqrtNat (n : Nat) : Nat :=
  let f := roundFloat64 n
  if f = 0 then 0
  else
    let e := 52 - Nat.log 2 (Nat.sqrt f)
    let q := Nat.sqrt (f * 4 ^ e)
    let M := if f * 4 ^ e ≤ q * q + q then q else q + 1
    M / 2 ^ e

/-- The Go expression `int(math.Sqrt(float64(shift)))` on every `int`; for a
negative `shift` the square root is NaN and the conversion gives the least
`int`, as on amd64. -/
def goSqrtInt (shift : Int) : Int :=
  if 0 ≤ shift then (goSqrtNat shift.toNat : Nat) else -9223372036854775808

/-- Two runs use the same library functions; they may differ in the order in
which `range` visits a map and in the permutation `sort.Sort` performs. -/
def Env.SameLibrary (env1 env2 : Env) : Prop :=
  env2.caseTable = env1.caseTable ∧ env2.blake2b = env1.blake2b ∧
    env2.sqrtInt = env1.sqrtInt ∧ env2.scale = env1.scale ∧
    env2.parseFloat = env1.parseFloat

/-- The largest `k ≤ bound` with `k * k ≤ n`, and `0` when there is none. -/
def searchSqrt (n : Nat) : Nat → Nat
  | 0 => 0
  | k + 1 => if (k + 1) * (k + 1) ≤ n then k + 1 else searchSqrt n k

/-- An environment on which the definitions can be evaluated: identity case
table, a digest that repeats the length of the string, a map visited in
insertion order, an insertion sort, the integer square root, a coordinate
scaled to its bit pattern and a parser of decimal digits. -/
def sampleEnv : Env where
  caseTable := id
  blake2b := fun size s => List.replicate size (s.length % 256)
  mapRange := id
  sortSort := fun less l => l.insertionSort (fun a b => less b a = false)
  sqrtInt := fun s => (searchSqrt s.toNat s.toNat : Nat)
  scale := fun c _ => (c.bits : Int)
  parseFloat := fun s =>
    if s.data ≠ [] ∧ s.data.all Char.isDigit then
      some ⟨s.data.foldl (fun n c => 10 * n + (c.toNat - 48)) 0⟩
    else none

/-- The block that `paintImage` paints for the texel `t` on a canvas of side
`dim` contains the position `(m, n)`. -/
def blockCovers (env : Env) (dim : Int) (t : texel) (m n : Int) : Bool :=
  let px := Int.tdiv t.count 4
  let x := env.scale t.coord.x dim + env.sqrtInt t.seq
  let y := env.scale t.coord.y dim + env.sqrtInt t.seq
  decide ((x - px ≤ m ∧ m < x + px) ∧ (y - px ≤ n ∧ n < y + px))

/-- The last texel of `data` whose block contains the position `(m, n)`. -/
def lastCover (env : Env) (dim : Int) (data : List texel) (m n : Int) : Option texel :=
  (data.filter (fun t => blockCovers env dim t m n)).getLast?

/-- The colour with which `paintImage` paints `t`, zero when `t` lacks a
colour byte. -/
def texelColor (t : texel) : clr.RGBA :=
  (paintColor t).getD ⟨0, 0, 0, 0⟩

/-- A canvas of 8 by 8 zero pixels. -/
def blankCanvas : image.RGBA :=
  { Rect := ⟨⟨0, 0⟩, ⟨8, 8⟩⟩, pix := fun _ _ => ⟨0, 0, 0, 0⟩ }

/-- The sample environment with the square root computed in floating point. -/
def floatEnv : Env :=
  { sampleEnv with sqrtInt := goSqrtInt }

/-- The sample environment with the map visited in the reverse order. -/
def sampleEnvRev : Env :=
  { sampleEnv with mapRange := List.reverse }

/-- A trie holding the words "cat" and "bird" at the same point. -/
def overlapTrie : Trie where
  Get := fun w =>
    if w = "cat" then some ⟨⟨⟨3⟩, ⟨3⟩⟩⟩
    else if w = "bird" then some ⟨⟨⟨3⟩, ⟨3⟩⟩⟩
    else none
  Levenshtein := fun _ _ => []

/-- The texels `countTexel` returns for a document in which "cat" and "bird"
occur four times each, resolved in `overlapTrie`. -/
def overlapTexels : List texel :=
  countTexel sampleEnv overlapTrie
    (processTexels sampleEnv (loadArticle "cat bird cat bird cat bird cat bird"))

/-- A trie holding the words "cat" and "dog", answering approximate queries
for "dig" with two candidates and no other query. -/
def sampleTrie : Trie where
  Get := fun w =>
    if w = "cat" then some ⟨⟨⟨1⟩, ⟨2⟩⟩⟩
    else if w = "dog" then some ⟨⟨⟨7⟩, ⟨8⟩⟩⟩
    else none
  Levenshtein := fun w _ =>
    if w = "dig" then [⟨⟨⟨⟨3⟩, ⟨4⟩⟩⟩⟩, ⟨⟨⟨⟨5⟩, ⟨6⟩⟩⟩⟩] else []

/-- The texels `process` builds for the tokens "cat", "dog", "cat", "cat". -/
def catDogTexels : List texel :=
  processTexels sampleEnv ["cat", "dog", "cat", "cat"]

/-! ## Definitions used in the statements and proofs -/

/-- No key occurs twice and every entry is stored under its own word. -/
def GoMap.WF (m : GoMap) : Prop :=
  (m.map Prod.fst).Nodup ∧ ∀ p ∈ m, p.2.word = p.1

/-- The record that one iteration of the aggregation loop stores. -/
def foldRecord (words : GoMap) (t : texel) : texel :=
  { t with
    seq := Int.tdiv (addInt t.seq (GoMap.get words t.word).seq) 2
    count := t.count + (GoMap.get words t.word).count }

/-- The texel that one iteration of the second loop of `countTexel` appends
for the record `t`, if it appends one. -/
def resolveOne (env : Env) (trie : Trie) (t : texel) : Option texel :=
  match trie.Get t.word with
  | some node => some { t with coord := node.info, color := hash env t.word 3 }
  | none =>
    match (trie.Levenshtein t.word 3).getLast? with
    | none => none
    | some q => some { t with coord := q.Node.info, color := hash env t.word 3 }

/-- The six runes `cleanWord` strips: double quote, single quote, comma,
period, exclamation mark, question mark. -/
def strippedRunes : List Char := ['"', '\'', ',', '.', '!', '?']

/-- The texel of "cat" with the largest position signal of an `int`,
`2^63 - 1`. -/
def bigCat : texel :=
  toTexel sampleEnv "cat" 9223372036854775807

/-- The map after the occurrences "cat" at index 0 and "dog" at index 1. -/
def catDogMap : GoMap :=
  aggregate [toTexel sampleEnv "cat" 0, toTexel sampleEnv "dog" 1]

/-- The texels `process` builds for the tokens "cat", "dig", "zzz", "cat". -/
def catDigTexels : List texel :=
  processTexels sampleEnv ["cat", "dig", "zzz", "cat"]

/-! ## Lemmas on Go maps -/

theorem GoMap.find_set_same (m : GoMap) (k : String) (v : texel) :
    GoMap.find (GoMap.set m k v) k = some v := by
  induction m with
  | nil => simp [GoMap.set, GoMap.find]
  | cons e rest ih =>
    obtain ⟨k', v'⟩ := e
    by_cases h : k' = k
    · simp [GoMap.set, GoMap.find, h]
    · simp [GoMap.set, GoMap.find, h, ih]

theorem GoMap.find_set_other (m : GoMap) (k k' : String) (v : texel) (hk : k' ≠ k) :
    GoMap.find (GoMap.set m k v) k' = GoMap.find m k' := by
  induction m with
  | nil => simp [GoMap.set, GoMap.find, Ne.symm hk]
  | cons e rest ih =>
    obtain ⟨k0, v0⟩ := e
    by_cases h : k0 = k
    · subst h
      simp [GoMap.set, GoMap.find, Ne.symm hk]
    · by_cases h2 : k0 = k'
      · subst h2
        simp [GoMap.set, GoMap.find, h]
      · simp [GoMap.set, GoMap.find, h, h2, ih]

theorem GoMap.keys_set (m : GoMap) (k : String) (v : texel) (x : String) :
    x ∈ (GoMap.set m k v).map Prod.fst ↔ x = k ∨ x ∈ m.map Prod.fst := by
  induction m with
  | nil => simp [GoMap.set]
  | cons e rest ih =>
    obtain ⟨k0, v0⟩ := e
    by_cases h : k0 = k
    · subst h
      simp [GoMap.set]
    · simp only [GoMap.set, h, if_false, List.map_cons, List.mem_cons, ih]
      tauto

theorem GoMap.nodup_set (m : GoMap) (k : String) (v : texel)
    (hm : (m.map Prod.fst).Nodup) : ((GoMap.set m k v).map Prod.fst).Nodup := by
  induction m with
  | nil => simp [GoMap.set]
  | cons e rest ih =>
    obtain ⟨k0, v0⟩ := e
    simp only [List.map_cons, List.nodup_cons] at hm
    by_cases h : k0 = k
    · subst h
      simpa [GoMap.set] using hm
    · simp only [GoMap.set, h, if_false, List.map_cons, List.nodup_cons]
      refine ⟨?_, ih hm.2⟩
      rw [GoMap.keys_set]
      rintro (h1 | h1)
      · exact h h1
      · exact hm.1 h1

theorem GoMap.find_of_mem (m : GoMap) (hm : (m.map Prod.fst).Nodup) (k : String)
    (v : texel) (h : (k, v) ∈ m) : GoMap.find m k = some v := by
  induction m with
  | nil => simp at h
  | cons e rest ih =>
    obtain ⟨k0, v0⟩ := e
    simp only [List.map_cons, List.nodup_cons] at hm
    simp only [List.mem_cons, Prod.mk.injEq] at h
    by_cases h0 : k0 = k
    · subst h0
      rcases h with h | h
      · simp [GoMap.find, h.2]
      · exact absurd (List.mem_map_of_mem Prod.fst h) hm.1
    · rcases h with h | h
      · exact absurd h.1.symm h0
      · simp [GoMap.find, h0, ih hm.2 h]

theorem GoMap.mem_of_find (m : GoMap) (k : String) (v : texel)
    (h : GoMap.find m k = some v) : (k, v) ∈ m := by
  induction m with
  | nil => simp [GoMap.find] at h
  | cons e rest ih =>
    obtain ⟨k0, v0⟩ := e
    by_cases h0 : k0 = k
    · subst h0
      simp [GoMap.find] at h
      simp [h]
    · simp only [GoMap.find, h0, if_false] at h
      exact List.mem_cons_of_mem _ (ih h)

theorem GoMap.mem_set (m : GoMap) (k : String) (v : texel) (p : String × texel)
    (h : p ∈ GoMap.set m k v) : p = (k, v) ∨ p ∈ m := by
  induction m with
  | nil => simpa [GoMap.set] using h
  | cons e rest ih =>
    obtain ⟨k0, v0⟩ := e
    by_cases h0 : k0 = k
    · simp only [GoMap.set, h0, if_true, List.mem_cons] at h
      rcases h with h | h
      · exact Or.inl h
      · exact Or.inr (List.mem_cons_of_mem _ h)
    · simp only [GoMap.set, h0, if_false, List.mem_cons] at h
      rcases h with h | h
      · exact Or.inr (by simp [h])
      · rcases ih h with h1 | h1
        · exact Or.inl h1
        · exact Or.inr (List.mem_cons_of_mem _ h1)

/-! ## Lemmas on the aggregation loop -/

theorem foldStep_eq (words : GoMap) (t : texel) :
    foldStep words t = GoMap.set words t.word (foldRecord words t) := rfl

theorem foldStep_find_same (words : GoMap) (t : texel) :
    GoMap.find (foldStep words t) t.word = some (foldRecord words t) := by
  rw [foldStep_eq]
  exact GoMap.find_set_same _ _ _

theorem foldStep_find_other (words : GoMap) (t : texel) (k : String)
    (hk : k ≠ t.word) : GoMap.find (foldStep words t) k = GoMap.find words k := by
  rw [foldStep_eq]
  exact GoMap.find_set_other _ _ _ _ hk

theorem foldStep_wf (words : GoMap) (t : texel) (h : words.WF) :
    (foldStep words t).WF := by
  rw [foldStep_eq]
  refine ⟨GoMap.nodup_set _ _ _ h.1, ?_⟩
  intro p hp
  rcases GoMap.mem_set _ _ _ _ hp with h1 | h1
  · subst h1
    rfl
  · exact h.2 p h1

theorem foldl_foldStep_wf (texs : List texel) (m : GoMap) (h : m.WF) :
    (texs.foldl foldStep m).WF := by
  induction texs generalizing m with
  | nil => exact h
  | cons t rest ih => exact ih _ (foldStep_wf m t h)

theorem aggregate_wf (texs : List texel) : (aggregate texs).WF :=
  foldl_foldStep_wf texs [] ⟨by simp, by simp⟩

theorem foldStep_get_count (words : GoMap) (t : texel) (k : String) :
    (GoMap.get (foldStep words t) k).count =
      (GoMap.get words k).count + (if t.word = k then t.count else 0) := by
  by_cases h : t.word = k
  · subst h
    simp [GoMap.get, foldStep_find_same, foldRecord]
    ring
  · have h' : k ≠ t.word := fun e => h e.symm
    simp [GoMap.get, foldStep_find_other _ _ _ h', h]

theorem foldl_foldStep_count (texs : List texel) (m : GoMap) (k : String)
    (h1 : ∀ t ∈ texs, t.count = 1) :
    (GoMap.get (texs.foldl foldStep m) k).count =
      (GoMap.get m k).count + (texs.countP (fun t => t.word = k) : Nat) := by
  induction texs generalizing m with
  | nil => simp
  | cons t rest ih =>
    have ht : t.count = 1 := h1 t (List.mem_cons_self _ _)
    have hr : ∀ x ∈ rest, x.count = 1 := fun x hx => h1 x (List.mem_cons_of_mem _ hx)
    rw [List.foldl_cons, ih _ hr, foldStep_get_count, ht, List.countP_cons]
    by_cases h : t.word = k
    · simp [h]
      ring
    · simp [h]

theorem aggregate_count (texs : List texel) (k : String)
    (h1 : ∀ t ∈ texs, t.count = 1) :
    (GoMap.get (aggregate texs) k).count = (texs.countP (fun t => t.word = k) : Nat) := by
  have h := foldl_foldStep_count texs [] k h1
  simpa [aggregate, GoMap.get, GoMap.find, texel.zero] using h

theorem foldl_foldStep_isSome (texs : List texel) (m : GoMap) (k : String) :
    (GoMap.find (texs.foldl foldStep m) k).isSome = true ↔
      (GoMap.find m k).isSome = true ∨ ∃ t ∈ texs, t.word = k := by
  induction texs generalizing m with
  | nil => simp
  | cons t rest ih =>
    rw [List.foldl_cons, ih]
    by_cases h : t.word = k
    · subst h
      simp [foldStep_find_same]
    · have h' : k ≠ t.word := fun e => h e.symm
      simp [foldStep_find_other _ _ _ h', h]

theorem aggregate_isSome (texs : List texel) (k : String) :
    (GoMap.find (aggregate texs) k).isSome = true ↔ ∃ t ∈ texs, t.word = k := by
  have h := foldl_foldStep_isSome texs [] k
  simpa [aggregate, GoMap.find] using h

/-! ## Lemmas on the resolution loop -/

theorem resolveStep_fst (env : Env) (trie : Trie) (st : List texel × Int) (t : texel) :
    (resolveStep env trie st t).1 = st.1 ++ (resolveOne env trie t).toList := by
  unfold resolveStep resolveOne
  cases hg : trie.Get t.word with
  | some node => simp
  | none =>
    simp only
    by_cases hl : (trie.Levenshtein t.word 3).length = 0
    · have hnil : trie.Levenshtein t.word 3 = [] := List.length_eq_zero.mp hl
      simp [hnil]
    · have hlast : (trie.Levenshtein t.word 3).getLast? =
          some ((trie.Levenshtein t.word 3).get
            ⟨(trie.Levenshtein t.word 3).length - 1, by omega⟩) := by
        rw [List.getLast?_eq_getElem?, List.getElem?_eq_getElem (by omega)]
        rfl
      simp [hl, hlast]

theorem foldl_resolveStep_fst (env : Env) (trie : Trie) (l : List texel)
    (st : List texel × Int) :
    (l.foldl (resolveStep env trie) st).1 = st.1 ++ l.filterMap (resolveOne env trie) := by
  induction l generalizing st with
  | nil => simp
  | cons t rest ih =>
    rw [List.foldl_cons, ih, resolveStep_fst]
    cases h : resolveOne env trie t <;> simp [List.filterMap_cons, h]

theorem resolveLoop_fst (env : Env) (trie : Trie) (m : GoMap) :
    (resolveLoop env trie m).1 =
      ((env.mapRange m).map Prod.snd).filterMap (resolveOne env trie) := by
  unfold resolveLoop
  rw [foldl_resolveStep_fst]
  simp

theorem resolveOne_word (env : Env) (trie : Trie) (v t : texel)
    (h : resolveOne env trie v = some t) : t.word = v.word ∧ t.count = v.count ∧ t.seq = v.seq := by
  unfold resolveOne at h
  cases hg : trie.Get v.word with
  | some node =>
    simp [hg] at h
    subst h
    exact ⟨rfl, rfl, rfl⟩
  | none =>
    simp only [hg] at h
    cases hq : (trie.Levenshtein v.word 3).getLast? with
    | none => simp [hq] at h
    | some q =>
      simp [hq] at h
      subst h
      exact ⟨rfl, rfl, rfl⟩

/-- Membership in the output of `countTexel`: the texels of the output are the
resolved records of the aggregation map. -/
theorem mem_countTexel (env : Env) (hr : env.RangeOK) (hs : env.SortOK) (trie : Trie)
    (texs : List texel) (t : texel) :
    t ∈ countTexel env trie texs ↔
      ∃ v, GoMap.find (aggregate texs) v.word = some v ∧ resolveOne env trie v = some t := by
  unfold countTexel
  simp only
  rw [(hs _).1.mem_iff, resolveLoop_fst, List.mem_filterMap]
  have hwf := aggregate_wf texs
  constructor
  · rintro ⟨v, hv, hres⟩
    rw [List.mem_map] at hv
    obtain ⟨p, hp, rfl⟩ := hv
    have hp' : p ∈ aggregate texs := (hr _).mem_iff.mp hp
    refine ⟨p.2, ?_, hres⟩
    have hk : p.2.word = p.1 := hwf.2 p hp'
    rw [hk]
    exact GoMap.find_of_mem _ hwf.1 _ _ hp'
  · rintro ⟨v, hv, hres⟩
    refine ⟨v, ?_, hres⟩
    rw [List.mem_map]
    exact ⟨(v.word, v), (hr _).mem_iff.mpr (GoMap.mem_of_find _ _ _ hv), rfl⟩

/-- The output texels of one word all come from the one record the
aggregation map holds for that word. -/
theorem mem_countTexel_word (env : Env) (hr : env.RangeOK) (hs : env.SortOK) (trie : Trie)
    (texs : List texel) (t : texel) (h : t ∈ countTexel env trie texs) :
    ∃ v, GoMap.find (aggregate texs) t.word = some v ∧ v.word = t.word ∧
      resolveOne env trie v = some t := by
  obtain ⟨v, hv, hres⟩ := (mem_countTexel env hr hs trie texs t).mp h
  have hw := (resolveOne_word env trie v t hres).1
  exact ⟨v, by rw [hw]; exact hv, hw.symm, hres⟩

/-! ## The sample environment meets the conditions -/

theorem sampleEnv_rangeOK : sampleEnv.RangeOK :=
  fun m => List.Perm.refl m

theorem sampleEnv_caseTableOK : sampleEnv.CaseTableOK :=
  fun _ hr => Or.inl hr

theorem isSorted_iff_chain (less : texel → texel → Bool) (l : List texel) :
    sort.IsSorted less l = true ↔ l.Chain' (fun a b => less b a = false) := by
  induction l with
  | nil => simp [sort.IsSorted]
  | cons a rest ih =>
    cases rest with
    | nil => simp [sort.IsSorted]
    | cons b rest2 =>
      simp only [sort.IsSorted, Bool.and_eq_true, Bool.not_eq_true', List.chain'_cons]
      rw [ih]

theorem reverse_less_false (a b : texel) :
    sort.Reverse texels.Less b a = false ↔ b.count ≤ a.count := by
  simp [sort.Reverse, texels.Less]

/-- A slice that `sort.IsSorted` accepts under the reversed `Less` has its
counts in descending order. -/
theorem isSorted_reverse_pairwise (l : List texel)
    (h : sort.IsSorted (sort.Reverse texels.Less) l = true) :
    l.Pairwise (fun a b => b.count ≤ a.count) := by
  rw [isSorted_iff_chain] at h
  have hc : l.Chain' (fun a b => b.count ≤ a.count) :=
    h.imp (fun {a b} hab => (reverse_less_false a b).mp hab)
  haveI : IsTrans texel (fun a b => b.count ≤ a.count) :=
    ⟨fun _ _ _ h1 h2 => le_trans h2 h1⟩
  exact List.chain'_iff_pairwise.mp hc

theorem sampleEnv_sortOK : sampleEnv.SortOK := by
  intro l
  haveI : IsTrans texel (fun a b => sort.Reverse texels.Less b a = false) :=
    ⟨fun a b c h1 h2 => by
      rw [reverse_less_false] at *
      exact le_trans h2 h1⟩
  haveI : IsTotal texel (fun a b => sort.Reverse texels.Less b a = false) :=
    ⟨fun a b => by
      simp only [reverse_less_false]
      exact le_total _ _⟩
  refine ⟨List.perm_insertionSort _ l, ?_⟩
  rw [isSorted_iff_chain]
  exact List.Pairwise.chain' (List.sorted_insertionSort _ l)

/-! ## Aggregation: count and the fold recurrence -/

/-- C1. When every input texel has count 1, as `toTexel` builds them, every
texel of the output of `countTexel` has a count equal to the number of input
texels carrying its word; for the tokens "cat", "dog", "cat", "cat" the
record of "cat" has count 3. -/
theorem countTexel_count_eq_occurrences (env : Env) (hr : env.RangeOK) (hs : env.SortOK)
    (trie : Trie) (texs : List texel) (h1 : ∀ t ∈ texs, t.count = 1) :
    (∀ t ∈ countTexel env trie texs,
      t.count = (texs.countP (fun x => x.word = t.word) : Nat)) ∧
    (∀ t ∈ countTexel env trie (processTexels env ["cat", "dog", "cat", "cat"]),
      t.word = "cat" → t.count = 3) := by
  have key : ∀ (l : List texel), (∀ t ∈ l, t.count = 1) →
      ∀ t ∈ countTexel env trie l, t.count = (l.countP (fun x => x.word = t.word) : Nat) := by
    intro l hl t ht
    obtain ⟨v, hv, _, hres⟩ := mem_countTexel_word env hr hs trie l t ht
    have hcnt := aggregate_count l t.word hl
    simp only [GoMap.get, hv, Option.getD_some] at hcnt
    rw [(resolveOne_word env trie v t hres).2.1, hcnt]
  refine ⟨key texs h1, ?_⟩
  intro t ht hw
  have hall : ∀ x ∈ processTexels env ["cat", "dog", "cat", "cat"], x.count = 1 := by
    intro x hx
    simp only [processTexels, List.mem_map] at hx
    obtain ⟨p, _, rfl⟩ := hx
    rfl
  rw [key _ hall t ht, hw]
  rfl

/-- Witness for C1: the four texels of "cat", "dog", "cat", "cat". -/
theorem countTexel_count_eq_occurrences_witness :
    (∀ t ∈ catDogTexels, t.count = 1) ∧
    ((∀ t ∈ countTexel sampleEnv sampleTrie catDogTexels,
      t.count = (catDogTexels.countP (fun x => x.word = t.word) : Nat)) ∧
    (∀ t ∈ countTexel sampleEnv sampleTrie
        (processTexels sampleEnv ["cat", "dog", "cat", "cat"]),
      t.word = "cat" → t.count = 3)) :=
  ⟨by decide,
    countTexel_count_eq_occurrences sampleEnv sampleEnv_rangeOK sampleEnv_sortOK sampleTrie
      catDogTexels (by decide)⟩

theorem addInt_zero (a : Int) : addInt a 0 = a := by
  unfold addInt
  split
  · omega
  · omega

/-- The sum of two values of `int` is exact when it lies in the range of
`int`. -/
theorem addInt_eq (a b : Int) (hlo : -9223372036854775808 ≤ a + b)
    (hhi : a + b < 9223372036854775808) : addInt a b = a + b := by
  unfold addInt
  split
  · omega
  · rfl

theorem tdiv_two_eq_floor (a : Int) (ha : 0 ≤ a) : Int.tdiv a 2 = ⌊(a : ℚ) / 2⌋ := by
  have h := Rat.floor_intCast_div_natCast a 2
  rw [Int.tdiv_eq_ediv ha (by decide)]
  simpa using h.symm

/-- C2, as stated, fails: the first occurrence of "cat" at index 5 is stored
with position signal 2, not 5. -/
theorem foldStep_absent_counterexample :
    GoMap.find [] (toTexel sampleEnv "cat" 5).word = none ∧
    (toTexel sampleEnv "cat" 5).count = 1 ∧
    (0 : Int) ≤ (toTexel sampleEnv "cat" 5).seq ∧
    (toTexel sampleEnv "cat" 5).seq = 5 ∧
    GoMap.find (foldStep [] (toTexel sampleEnv "cat" 5)) "cat" =
      some { texel.zero with word := "cat", count := 1, seq := 2 } ∧
    (GoMap.get (foldStep [] (toTexel sampleEnv "cat" 5)) "cat").seq ≠
      (toTexel sampleEnv "cat" 5).seq := by
  decide

/-- C2 (amended). When the aggregation loop of `countTexel` processes the
first occurrence of a word, at index `i ≥ 0` (no record exists yet for the
word), the record it stores has count 1 and position signal `floor(i / 2)`:
the index is halved against the zero record, so the signal equals `i` only
for `i = 0`. -/
theorem foldStep_absent (words : GoMap) (t : texel)
    (habs : GoMap.find words t.word = none) (hc : t.count = 1) (hi : 0 ≤ t.seq) :
    ∃ r, GoMap.find (foldStep words t) t.word = some r ∧ r.count = 1 ∧
      r.seq = ⌊(t.seq : ℚ) / 2⌋ ∧ (r.seq = t.seq ↔ t.seq = 0) := by
  refine ⟨foldRecord words t, foldStep_find_same words t, ?_, ?_, ?_⟩
  · simp [foldRecord, GoMap.get, habs, texel.zero, hc]
  · simp only [foldRecord, GoMap.get, habs, Option.getD_none, texel.zero, addInt_zero]
    exact tdiv_two_eq_floor _ hi
  · simp only [foldRecord, GoMap.get, habs, Option.getD_none, texel.zero, addInt_zero]
    rw [Int.tdiv_eq_ediv hi (by decide)]
    omega

/-- Witness for C2 (amended): the first occurrence of "cat", at index 5. -/
theorem foldStep_absent_witness :
    (GoMap.find [] (toTexel sampleEnv "cat" 5).word = none ∧
      (toTexel sampleEnv "cat" 5).count = 1 ∧ 0 ≤ (toTexel sampleEnv "cat" 5).seq) ∧
    ∃ r, GoMap.find (foldStep [] (toTexel sampleEnv "cat" 5))
        (toTexel sampleEnv "cat" 5).word = some r ∧ r.count = 1 ∧
      r.seq = ⌊((toTexel sampleEnv "cat" 5).seq : ℚ) / 2⌋ ∧
      (r.seq = (toTexel sampleEnv "cat" 5).seq ↔ (toTexel sampleEnv "cat" 5).seq = 0) :=
  ⟨by decide, foldStep_absent [] (toTexel sampleEnv "cat" 5) (by decide) (by decide) (by decide)⟩

/-- C3, as stated, fails: the sum of the index and the position signal wraps
around.  After a first occurrence of "cat" at index `2^63 - 1` the record has
position signal `4611686018427387903`; a further occurrence at index
`2^63 - 1` stores `-2305843009213693953`, not
`floor((i + s) / 2) = 6917529027641081855`. -/
theorem foldStep_present_counterexample :
    GoMap.find (aggregate [bigCat]) bigCat.word =
      some { texel.zero with word := "cat", count := 1, seq := 4611686018427387903 } ∧
    (0 : Int) ≤ 4611686018427387903 ∧ bigCat.count = 1 ∧ 0 ≤ bigCat.seq ∧
    GoMap.find (foldStep (aggregate [bigCat]) bigCat) bigCat.word =
      some { texel.zero with word := "cat", count := 2, seq := -2305843009213693953 } ∧
    Int.fdiv (bigCat.seq + 4611686018427387903) 2 = 6917529027641081855 ∧
    (-2305843009213693953 : Int) ≠ Int.fdiv (bigCat.seq + 4611686018427387903) 2 := by
  decide

/-- C3 (amended). When the aggregation loop of `countTexel` processes a
further occurrence, at index `i ≥ 0`, of a word whose record has position
signal `s ≥ 0` and count `c`, and neither `i + s` nor `c + 1` reaches `2^63`
(the sums do not overflow an `int`), the stored record becomes position
signal `floor((i + s) / 2)` and count `c + 1`, and the records of all other
words are unchanged. -/
theorem foldStep_present (words : GoMap) (t r : texel)
    (hpres : GoMap.find words t.word = some r) (hs : 0 ≤ r.seq)
    (hc : t.count = 1) (hi : 0 ≤ t.seq)
    (hsum : t.seq + r.seq < 9223372036854775808)
    (hcnt : r.count + 1 < 9223372036854775808) :
    (∃ r', GoMap.find (foldStep words t) t.word = some r' ∧
      r'.seq = ⌊((t.seq + r.seq : Int) : ℚ) / 2⌋ ∧ r'.count = r.count + 1 ∧
      r'.count < 9223372036854775808) ∧
    ∀ k, k ≠ t.word → GoMap.find (foldStep words t) k = GoMap.find words k := by
  refine ⟨⟨foldRecord words t, foldStep_find_same words t, ?_, ?_, ?_⟩, ?_⟩
  · simp only [foldRecord, GoMap.get, hpres, Option.getD_some]
    rw [addInt_eq _ _ (by omega) hsum]
    exact tdiv_two_eq_floor _ (add_nonneg hi hs)
  · simp only [foldRecord, GoMap.get, hpres, Option.getD_some, hc]
    ring
  · simp only [foldRecord, GoMap.get, hpres, Option.getD_some, hc]
    omega
  · intro k hk
    exact foldStep_find_other words t k hk

/-- Witness for C3 (amended): the second occurrence of "cat", at index 2,
gives position signal `(2 + 0) / 2`. -/
theorem foldStep_present_witness :
    (GoMap.find catDogMap (toTexel sampleEnv "cat" 2).word =
        some (toTexel sampleEnv "cat" 0) ∧
      0 ≤ (toTexel sampleEnv "cat" 0).seq ∧ (toTexel sampleEnv "cat" 2).count = 1 ∧
      0 ≤ (toTexel sampleEnv "cat" 2).seq ∧
      (toTexel sampleEnv "cat" 2).seq + (toTexel sampleEnv "cat" 0).seq <
        9223372036854775808 ∧
      (toTexel sampleEnv "cat" 0).count + 1 < 9223372036854775808) ∧
    ((∃ r', GoMap.find (foldStep catDogMap (toTexel sampleEnv "cat" 2))
        (toTexel sampleEnv "cat" 2).word = some r' ∧
      r'.seq = ⌊(((toTexel sampleEnv "cat" 2).seq + (toTexel sampleEnv "cat" 0).seq : Int) : ℚ) / 2⌋ ∧
      r'.count = (toTexel sampleEnv "cat" 0).count + 1 ∧
      r'.count < 9223372036854775808) ∧
    ∀ k, k ≠ (toTexel sampleEnv "cat" 2).word →
      GoMap.find (foldStep catDogMap (toTexel sampleEnv "cat" 2)) k = GoMap.find catDogMap k) :=
  ⟨by decide,
    foldStep_present catDogMap (toTexel sampleEnv "cat" 2) (toTexel sampleEnv "cat" 0)
      (by decide) (by decide) (by decide) (by decide) (by decide) (by decide)⟩

/-! ## Normalisation: `cleanWord` -/

theorem mem_replaceRune_nil (old : Char) (l : List Char) (c : Char) :
    c ∈ replaceRune old [] l ↔ c ∈ l ∧ c ≠ old := by
  induction l with
  | nil => simp [replaceRune]
  | cons d rest ih =>
    by_cases h : d = old
    · subst h
      simp only [replaceRune, if_true, List.nil_append, ih, List.mem_cons]
      constructor
      · rintro ⟨h1, h2⟩
        exact ⟨Or.inr h1, h2⟩
      · rintro ⟨h1 | h1, h2⟩
        · exact absurd h1 h2
        · exact ⟨h1, h2⟩
    · simp only [replaceRune, h, if_false, List.mem_cons, ih]
      constructor
      · rintro (h1 | ⟨h1, h2⟩)
        · exact ⟨Or.inl h1, by rw [h1]; exact h⟩
        · exact ⟨Or.inr h1, h2⟩
      · rintro ⟨h1 | h1, h2⟩
        · exact Or.inl h1
        · exact Or.inr ⟨h1, h2⟩

/-- The runes of `cleanWord`: the lowered runes of the trimmed token that are
not stripped. -/
theorem mem_cleanWord (env : Env) (raw : String) (c : Char)
    (h : c ∈ (cleanWord env raw).data) :
    ∃ c0, c0 ∈ (strings.Trim raw " ").data ∧ c0 ∉ strippedRunes ∧
      c = unicode.ToLower env.caseTable c0 := by
  simp only [cleanWord, strings.ToLower, strings.Replace, List.mem_map,
    mem_replaceRune_nil] at h
  obtain ⟨c0, ⟨⟨⟨⟨⟨⟨h0, h1⟩, h2⟩, h3⟩, h4⟩, h5⟩, h6⟩, rfl⟩ := h
  refine ⟨c0, h0, ?_, rfl⟩
  simp only [strippedRunes, List.mem_cons, List.mem_singleton, List.not_mem_nil, or_false]
  tauto

theorem upper_shift_toNat (n : Nat) (h1 : 65 ≤ n) (h2 : n ≤ 90) :
    (Char.ofNat (n + 32)).toNat = n + 32 := by
  interval_cases n <;> rfl

theorem toNat_of_mem_strippedRunes (c : Char) (h : c ∈ strippedRunes) :
    c.toNat = 34 ∨ c.toNat = 39 ∨ c.toNat = 44 ∨ c.toNat = 46 ∨ c.toNat = 33 ∨
      c.toNat = 63 := by
  simp only [strippedRunes, List.mem_cons, List.mem_singleton, List.not_mem_nil, or_false] at h
  rcases h with h | h | h | h | h | h <;> subst h <;> decide

/-- The function `unicode.ToLower` fixes every ASCII rune that is not an
upper-case letter, and otherwise returns a rune above the ASCII range or a
lower-case ASCII letter. -/
theorem toLower_cases (env : Env) (hT : env.CaseTableOK) (c : Char) :
    unicode.ToLower env.caseTable c = c ∧ ¬ (65 ≤ c.toNat ∧ c.toNat ≤ 90) ∨
      0x7F < (unicode.ToLower env.caseTable c).toNat ∨
      (97 ≤ (unicode.ToLower env.caseTable c).toNat ∧
        (unicode.ToLower env.caseTable c).toNat ≤ 122) := by
  unfold unicode.ToLower
  by_cases h : c.toNat ≤ 0x7F
  · rw [if_pos h]
    by_cases hu : 'A'.toNat ≤ c.toNat ∧ c.toNat ≤ 'Z'.toNat
    · rw [if_pos hu]
      have h65 : 65 ≤ c.toNat := hu.1
      have h90 : c.toNat ≤ 90 := hu.2
      right; right
      rw [upper_shift_toNat _ h65 h90]
      omega
    · rw [if_neg hu]
      exact Or.inl ⟨rfl, hu⟩
  · rw [if_neg h]
    have h' : 0x7F < c.toNat := by omega
    rcases hT c h' with h1 | h1
    · exact Or.inr (Or.inl h1)
    · exact Or.inr (Or.inr h1)

/-- C4. For every raw token the result of `cleanWord` contains none of the six
runes double quote, single quote, comma, period, exclamation mark, question
mark, wherever they stood in the token, and no upper-case ASCII letter; and
`cleanWord("Cat,") = "cat"`.  The case table of package `unicode` is taken to
send no rune above the ASCII range to an ASCII rune other than a lower-case
letter. -/
theorem cleanWord_no_stripped_no_upper (env : Env) (hT : env.CaseTableOK) (raw : String) :
    (∀ c ∈ (cleanWord env raw).data,
      c ∉ strippedRunes ∧ ¬ ('A'.toNat ≤ c.toNat ∧ c.toNat ≤ 'Z'.toNat)) ∧
    cleanWord env "Cat," = "cat" := by
  refine ⟨?_, rfl⟩
  intro c hc
  obtain ⟨c0, _, hns, rfl⟩ := mem_cleanWord env raw c hc
  have hA : 'A'.toNat = 65 := rfl
  have hZ : 'Z'.toNat = 90 := rfl
  rw [hA, hZ]
  rcases toLower_cases env hT c0 with ⟨he, hnu⟩ | hhi | hlo
  · rw [he]
    exact ⟨hns, hnu⟩
  · refine ⟨fun hm => ?_, by omega⟩
    have := toNat_of_mem_strippedRunes _ hm
    omega
  · refine ⟨fun hm => ?_, by omega⟩
    have := toNat_of_mem_strippedRunes _ hm
    omega

/-- Witness for C4: the token `"He said, 'Hi!'"` with quotes and punctuation
inside. -/
theorem cleanWord_no_stripped_no_upper_witness :
    sampleEnv.CaseTableOK ∧
    ((∀ c ∈ (cleanWord sampleEnv "\"He said, 'Hi!'\"").data,
      c ∉ strippedRunes ∧ ¬ ('A'.toNat ≤ c.toNat ∧ c.toNat ≤ 'Z'.toNat)) ∧
    cleanWord sampleEnv "Cat," = "cat") :=
  ⟨sampleEnv_caseTableOK,
    cleanWord_no_stripped_no_upper sampleEnv sampleEnv_caseTableOK "\"He said, 'Hi!'\""⟩

theorem trimLeft_suffix (cs : List Char) (l : List Char) : trimLeft cs l <:+ l := by
  induction l with
  | nil => simp [trimLeft]
  | cons c rest ih =>
    by_cases h : c ∈ cs
    · simp only [trimLeft, h, if_true]
      exact ih.trans (List.suffix_cons c rest)
    · simp only [trimLeft, h, if_false]
      exact List.suffix_refl _

theorem trimLeft_head (cs : List Char) (l : List Char) (c : Char)
    (h : (trimLeft cs l).head? = some c) : c ∉ cs := by
  induction l with
  | nil => simp [trimLeft] at h
  | cons d rest ih =>
    by_cases hd : d ∈ cs
    · simp only [trimLeft, hd, if_true] at h
      exact ih h
    · simp only [trimLeft, hd, if_false, List.head?_cons, Option.some.injEq] at h
      rw [← h]
      exact hd

theorem suffix_getLast (l s : List Char) (hs : s <:+ l) (c : Char)
    (h : s.getLast? = some c) : l.getLast? = some c := by
  obtain ⟨pre, rfl⟩ := hs
  have hne : s ≠ [] := by
    rintro rfl
    simp at h
  rw [List.getLast?_append_of_ne_nil _ hne]
  exact h

/-- The result of `strings.Trim` neither begins nor ends with a rune of the
cutset. -/
theorem trim_ends (s cutset : String) :
    (∀ c, (strings.Trim s cutset).data.head? = some c → c ∉ cutset.data) ∧
    (∀ c, (strings.Trim s cutset).data.getLast? = some c → c ∉ cutset.data) := by
  constructor
  · intro c hc
    simp only [strings.Trim, List.head?_reverse] at hc
    have h1 := suffix_getLast _ _ (trimLeft_suffix cutset.data _) c hc
    rw [List.getLast?_reverse] at h1
    exact trimLeft_head _ _ _ h1
  · intro c hc
    simp only [strings.Trim, List.getLast?_reverse] at hc
    exact trimLeft_head _ _ _ hc

theorem mem_trim (s cutset : String) (c : Char) (h : c ∈ (strings.Trim s cutset).data) :
    c ∈ s.data := by
  simp only [strings.Trim, List.mem_reverse] at h
  have h1 := (trimLeft_suffix cutset.data _).subset h
  rw [List.mem_reverse] at h1
  exact (trimLeft_suffix cutset.data _).subset h1

theorem replaceRune_of_not_mem (old : Char) (new l : List Char) (h : old ∉ l) :
    replaceRune old new l = l := by
  induction l with
  | nil => rfl
  | cons d rest ih =>
    simp only [List.mem_cons, not_or] at h
    have hd : ¬ d = old := fun e => h.1 e.symm
    simp [replaceRune, hd, ih h.2]

theorem toLower_eq_space (env : Env) (hT : env.CaseTableOK) (c : Char)
    (h : unicode.ToLower env.caseTable c = ' ') : c = ' ' := by
  have hsp : (' ' : Char).toNat = 32 := rfl
  rcases toLower_cases env hT c with ⟨he, _⟩ | hhi | hlo
  · rw [← he]
    exact h
  · rw [h, hsp] at hhi
    omega
  · rw [h, hsp] at hlo
    omega

/-- C5, as stated, fails: `cleanWord` leaves a leading tab and a trailing
carriage return in place, and a space that follows a stripped quote becomes
the first rune of the result. -/
theorem cleanWord_whitespace_counterexample :
    cleanWord sampleEnv "\tcat\r" = "\tcat\r" ∧
    (cleanWord sampleEnv "\tcat\r").data.head? = some '\t' ∧
    (cleanWord sampleEnv "\tcat\r").data.getLast? = some '\r' ∧
    cleanWord sampleEnv "' cat" = " cat" ∧
    (cleanWord sampleEnv "' cat").data.head? = some ' ' := by
  decide

/-- C5 (amended). For every raw token that contains no space, as every token
of the split in `loadArticle`, or that contains none of the six stripped
runes, the result of `cleanWord` neither begins nor ends with a space: the
trim removes the surrounding spaces of the token only, not tabs, carriage
returns or newlines, and it runs before the six runes are stripped. -/
theorem cleanWord_trims_spaces (env : Env) (hT : env.CaseTableOK) (raw : String)
    (h : ' ' ∉ raw.data ∨ ∀ c ∈ strippedRunes, c ∉ raw.data) :
    (cleanWord env raw).data.head? ≠ some ' ' ∧
      (cleanWord env raw).data.getLast? ≠ some ' ' := by
  rcases h with h | h
  · have hno : ' ' ∉ (cleanWord env raw).data := by
      intro hm
      obtain ⟨c0, hc0, _, he⟩ := mem_cleanWord env raw ' ' hm
      have : c0 = ' ' := toLower_eq_space env hT c0 he.symm
      rw [this] at hc0
      exact h (mem_trim _ _ _ hc0)
    exact ⟨fun e => hno (List.mem_of_mem_head? e), fun e => hno (List.mem_of_mem_getLast? e)⟩
  · have hT0 : ∀ c ∈ strippedRunes, c ∉ (strings.Trim raw " ").data :=
      fun c hc hm => h c hc (mem_trim _ _ _ hm)
    have hdata : (cleanWord env raw).data =
        (strings.Trim raw " ").data.map (unicode.ToLower env.caseTable) := by
      simp only [cleanWord, strings.ToLower, strings.Replace]
      have e1 := replaceRune_of_not_mem '"' "".data _ (hT0 '"' (by decide))
      have e2 := replaceRune_of_not_mem '\'' "".data _ (hT0 '\'' (by decide))
      have e3 := replaceRune_of_not_mem ',' "".data _ (hT0 ',' (by decide))
      have e4 := replaceRune_of_not_mem '.' "".data _ (hT0 '.' (by decide))
      have e5 := replaceRune_of_not_mem '!' "".data _ (hT0 '!' (by decide))
      have e6 := replaceRune_of_not_mem '?' "".data _ (hT0 '?' (by decide))
      rw [e1, e2, e3, e4, e5, e6]
    have hends := trim_ends raw " "
    rw [hdata]
    constructor
    · intro e
      rw [List.head?_map, Option.map_eq_some'] at e
      obtain ⟨c0, hc0, he⟩ := e
      have hsp : c0 = ' ' := toLower_eq_space env hT c0 he
      exact hends.1 c0 hc0 (by rw [hsp]; decide)
    · intro e
      rw [List.getLast?_map, Option.map_eq_some'] at e
      obtain ⟨c0, hc0, he⟩ := e
      have hsp : c0 = ' ' := toLower_eq_space env hT c0 he
      exact hends.2 c0 hc0 (by rw [hsp]; decide)

/-- Witness for C5 (amended): the token `"  Cat "`, with surrounding spaces
and none of the stripped runes. -/
theorem cleanWord_trims_spaces_witness :
    (sampleEnv.CaseTableOK ∧
      (' ' ∉ "  Cat ".data ∨ ∀ c ∈ strippedRunes, c ∉ "  Cat ".data)) ∧
    ((cleanWord sampleEnv "  Cat ").data.head? ≠ some ' ' ∧
      (cleanWord sampleEnv "  Cat ").data.getLast? ≠ some ' ') :=
  ⟨⟨sampleEnv_caseTableOK, Or.inr (by decide)⟩,
    cleanWord_trims_spaces sampleEnv sampleEnv_caseTableOK "  Cat " (Or.inr (by decide))⟩

/-! ## Tokens: `loadArticle` and the loop of `process` -/

theorem mem_replaceRune (old : Char) (new l : List Char) (c : Char)
    (h : c ∈ replaceRune old new l) : c ∈ new ∨ (c ∈ l ∧ c ≠ old) := by
  induction l with
  | nil => simp [replaceRune] at h
  | cons d rest ih =>
    by_cases hd : d = old
    · simp only [replaceRune, hd, if_true, List.mem_append] at h
      rcases h with h | h
      · exact Or.inl h
      · rcases ih h with h1 | h1
        · exact Or.inl h1
        · exact Or.inr ⟨List.mem_cons_of_mem _ h1.1, h1.2⟩
    · simp only [replaceRune, hd, if_false, List.mem_cons] at h
      rcases h with h | h
      · exact Or.inr ⟨by simp [h], by rw [h]; exact hd⟩
      · rcases ih h with h1 | h1
        · exact Or.inl h1
        · exact Or.inr ⟨List.mem_cons_of_mem _ h1.1, h1.2⟩

theorem splitRunes_ne_nil (sep : Char) (l : List Char) : splitRunes sep l ≠ [] := by
  cases l with
  | nil => simp [splitRunes]
  | cons c rest =>
    by_cases h : c = sep
    · simp [splitRunes, h]
    · simp only [splitRunes, h, if_false]
      split <;> simp

theorem mem_splitRunes (sep : Char) (l : List Char) (w : List Char)
    (h : w ∈ splitRunes sep l) : ∀ c ∈ w, c ∈ l ∧ c ≠ sep := by
  induction l generalizing w with
  | nil =>
    simp only [splitRunes, List.mem_singleton] at h
    subst h
    simp
  | cons d rest ih =>
    by_cases hd : d = sep
    · simp only [splitRunes, hd, if_true, List.mem_cons] at h
      rcases h with h | h
      · subst h
        simp
      · intro c hc
        exact ⟨List.mem_cons_of_mem _ (ih w h c hc).1, (ih w h c hc).2⟩
    · simp only [splitRunes, hd, if_false] at h
      cases hsp : splitRunes sep rest with
      | nil => exact absurd hsp (splitRunes_ne_nil sep rest)
      | cons w0 ws =>
        rw [hsp] at h ih
        simp only [List.mem_cons] at h
        rcases h with h | h
        · subst h
          intro c hc
          simp only [List.mem_cons] at hc
          rcases hc with hc | hc
          · subst hc
            exact ⟨by simp, hd⟩
          · have := ih w0 (by simp) c hc
            exact ⟨List.mem_cons_of_mem _ this.1, this.2⟩
        · intro c hc
          have := ih w (by simp [h]) c hc
          exact ⟨List.mem_cons_of_mem _ this.1, this.2⟩

/-- No token of `loadArticle` contains a space or a newline. -/
theorem loadArticle_token (dat : String) (w : String) (h : w ∈ loadArticle dat) :
    ' ' ∉ w.data ∧ '\n' ∉ w.data := by
  simp only [loadArticle, strings.Split, strings.Replace, List.mem_map] at h
  obtain ⟨l, hl, rfl⟩ := h
  constructor
  · intro hm
    exact (mem_splitRunes _ _ _ hl ' ' hm).2 rfl
  · intro hm
    have h1 := (mem_splitRunes _ _ _ hl '\n' hm).1
    rcases mem_replaceRune _ _ _ _ h1 with h2 | h2
    · revert h2
      decide
    · exact h2.2 rfl

theorem mem_foldl_processStep (words : List String) (st : List (String × Int) × Int)
    (p : String × Int) (h : p ∈ (words.foldl processStep st).1) :
    p ∈ st.1 ∨ (p.1 ∈ words ∧ ¬ (p.1 = " " ∨ p.1 = "\n" ∨ p.1 = "")) := by
  induction words generalizing st with
  | nil => exact Or.inl h
  | cons w rest ih =>
    rw [List.foldl_cons] at h
    rcases ih _ h with h1 | h1
    · by_cases hw : w = " " ∨ w = "\n" ∨ w = ""
      · rw [processStep, if_pos hw] at h1
        exact Or.inl h1
      · rw [processStep, if_neg hw] at h1
        simp only [List.mem_append, List.mem_singleton] at h1
        rcases h1 with h1 | h1
        · exact Or.inl h1
        · subst h1
          exact Or.inr ⟨by simp, hw⟩
    · exact Or.inr ⟨List.mem_cons_of_mem _ h1.1, h1.2⟩

/-- C6, as stated, fails: the token that is a single tab consists only of
whitespace and is passed to `toTexel`, with index 1. -/
theorem process_keeps_tab_counterexample :
    loadArticle "a \t b" = ["a", "\t", "b"] ∧
    (∀ c ∈ "\t".data, c.isWhitespace = true) ∧
    toTexelCalls (loadArticle "a \t b") = [("a", 0), ("\t", 1), ("b", 2)] ∧
    ("\t", 1) ∈ toTexelCalls (loadArticle "a \t b") := by
  decide

/-- C6 (amended). For every document text, a token of the split in
`loadArticle` that is the empty string or consists only of spaces and
newlines is discarded by `process` before normalisation: every token passed
to `toTexel` is a token of the split that holds a rune other than space and
newline.  Tokens made of other whitespace (tab, carriage return) are not
discarded. -/
theorem process_discards_blank_tokens (dat : String) (p : String × Int)
    (h : p ∈ toTexelCalls (loadArticle dat)) :
    p.1 ∈ loadArticle dat ∧ ¬ (∀ c ∈ p.1.data, c = ' ' ∨ c = '\n') := by
  rcases mem_foldl_processStep _ _ p h with h1 | ⟨h1, h2⟩
  · simp at h1
  · refine ⟨h1, fun hall => ?_⟩
    have htok := loadArticle_token dat p.1 h1
    have hne : p.1 ≠ "" := fun e => h2 (Or.inr (Or.inr e))
    cases hd : p.1.data with
    | nil => exact hne (String.ext hd)
    | cons c rest =>
      have hc : c ∈ p.1.data := by rw [hd]; simp
      rcases hall c hc with e | e
      · rw [e] at hc
        exact htok.1 hc
      · rw [e] at hc
        exact htok.2 hc

/-- Witness for C6 (amended): the document "a cat,\n\ndog" yields three empty
tokens, none of which is passed on. -/
theorem process_discards_blank_tokens_witness :
    ("cat", 1) ∈ toTexelCalls (loadArticle "a cat,\n\ndog") ∧
    (("cat", (1 : Int)).1 ∈ loadArticle "a cat,\n\ndog" ∧
      ¬ (∀ c ∈ ("cat", (1 : Int)).1.data, c = ' ' ∨ c = '\n')) :=
  ⟨by decide, process_discards_blank_tokens "a cat,\n\ndog" ("cat", 1) (by decide)⟩

/-! ## Resolution: exact lookup, approximate lookup, dropped words -/

theorem aggregate_find_word (texs : List texel) (w : String) (v : texel)
    (h : GoMap.find (aggregate texs) w = some v) : v.word = w :=
  (aggregate_wf texs).2 (w, v) (GoMap.mem_of_find _ _ _ h)

theorem aggregate_find_of_mem (texs : List texel) (w : String)
    (h : ∃ x ∈ texs, x.word = w) :
    ∃ v, GoMap.find (aggregate texs) w = some v ∧ v.word = w := by
  have h1 := (aggregate_isSome texs w).mpr h
  obtain ⟨v, hv⟩ := Option.isSome_iff_exists.mp h1
  exact ⟨v, hv, aggregate_find_word texs w v hv⟩

theorem resolveOne_exact (env : Env) (trie : Trie) (v : texel) (node : TrieNode)
    (h : trie.Get v.word = some node) :
    resolveOne env trie v =
      some { v with coord := node.info, color := hash env v.word 3 } := by
  simp [resolveOne, h]

theorem resolveOne_approx (env : Env) (trie : Trie) (v : texel)
    (h : trie.Get v.word = none) (hne : trie.Levenshtein v.word 3 ≠ []) :
    resolveOne env trie v =
      some { v with
        coord := ((trie.Levenshtein v.word 3).getLast hne).Node.info
        color := hash env v.word 3 } := by
  simp [resolveOne, h, List.getLast?_eq_getLast _ hne]

theorem resolveOne_unknown (env : Env) (trie : Trie) (v : texel)
    (h : trie.Get v.word = none) (hnil : trie.Levenshtein v.word 3 = []) :
    resolveOne env trie v = none := by
  simp [resolveOne, h, hnil]

/-- C7. For every aggregated word for which the exact lookup `trie.Get`
returns a node, `countTexel` outputs a texel for that word and every output
texel of that word carries exactly that node's coordinate; the approximate
lookup plays no part: under any other `Levenshtein` the output texels of that
word are the same. -/
theorem countTexel_exact_coord (env : Env) (hr : env.RangeOK) (hs : env.SortOK)
    (get : String → Option TrieNode) (lev : String → Int → List QueryResult)
    (texs : List texel) (w : String) (node : TrieNode)
    (hin : ∃ x ∈ texs, x.word = w) (hget : get w = some node) :
    (∃ t ∈ countTexel env ⟨get, lev⟩ texs, t.word = w) ∧
    (∀ t ∈ countTexel env ⟨get, lev⟩ texs, t.word = w → t.coord = node.info) ∧
    (∀ (lev' : String → Int → List QueryResult) (t : texel), t.word = w →
      (t ∈ countTexel env ⟨get, lev'⟩ texs ↔ t ∈ countTexel env ⟨get, lev⟩ texs)) := by
  have hmem : ∀ (l : String → Int → List QueryResult) (t : texel), t.word = w →
      (t ∈ countTexel env ⟨get, l⟩ texs ↔
        ∃ v, GoMap.find (aggregate texs) w = some v ∧
          t = { v with coord := node.info, color := hash env v.word 3 }) := by
    intro l t ht
    rw [mem_countTexel env hr hs]
    constructor
    · rintro ⟨v, hv, hres⟩
      have hvw : v.word = w := by rw [← (resolveOne_word env _ v t hres).1, ht]
      have hg : (Trie.mk get l).Get v.word = some node := by rw [hvw]; exact hget
      rw [resolveOne_exact env _ v node hg] at hres
      exact ⟨v, by rw [← hvw]; exact hv, (Option.some.inj hres).symm⟩
    · rintro ⟨v, hv, rfl⟩
      have hvw : v.word = w := aggregate_find_word texs w v hv
      have hg : (Trie.mk get l).Get v.word = some node := by rw [hvw]; exact hget
      exact ⟨v, by rw [hvw]; exact hv, resolveOne_exact env _ v node hg⟩
  obtain ⟨v, hv, hvw⟩ := aggregate_find_of_mem texs w hin
  refine ⟨?_, ?_, ?_⟩
  · exact ⟨{ v with coord := node.info, color := hash env v.word 3 },
      (hmem lev { v with coord := node.info, color := hash env v.word 3 } hvw).mpr
        ⟨v, hv, rfl⟩, hvw⟩
  · intro t ht htw
    obtain ⟨v', _, rfl⟩ := (hmem lev t htw).mp ht
    rfl
  · intro lev' t htw
    rw [hmem lev' t htw, hmem lev t htw]

/-- Witness for C7: "cat" is in the sample trie at the point `(1, 2)`. -/
theorem countTexel_exact_coord_witness :
    ((∃ x ∈ catDogTexels, x.word = "cat") ∧
      sampleTrie.Get "cat" = some ⟨⟨⟨1⟩, ⟨2⟩⟩⟩) ∧
    ((∃ t ∈ countTexel sampleEnv ⟨sampleTrie.Get, sampleTrie.Levenshtein⟩ catDogTexels,
      t.word = "cat") ∧
    (∀ t ∈ countTexel sampleEnv ⟨sampleTrie.Get, sampleTrie.Levenshtein⟩ catDogTexels,
      t.word = "cat" → t.coord = (TrieNode.mk ⟨⟨1⟩, ⟨2⟩⟩).info) ∧
    (∀ (lev' : String → Int → List QueryResult) (t : texel), t.word = "cat" →
      (t ∈ countTexel sampleEnv ⟨sampleTrie.Get, lev'⟩ catDogTexels ↔
        t ∈ countTexel sampleEnv ⟨sampleTrie.Get, sampleTrie.Levenshtein⟩ catDogTexels))) :=
  ⟨⟨by decide, by decide⟩,
    countTexel_exact_coord sampleEnv sampleEnv_rangeOK sampleEnv_sortOK sampleTrie.Get
      sampleTrie.Levenshtein catDogTexels "cat" ⟨⟨⟨1⟩, ⟨2⟩⟩⟩ (by decide) (by decide)⟩

theorem resolveOne_approx_of_word (env : Env) (trie : Trie) (v : texel) (w : String)
    (hvw : v.word = w) (h : trie.Get w = none) (hne : trie.Levenshtein w 3 ≠ []) :
    resolveOne env trie v =
      some { v with
        coord := ((trie.Levenshtein w 3).getLast hne).Node.info
        color := hash env v.word 3 } := by
  subst hvw
  exact resolveOne_approx env trie v h hne

/-- C8. For every aggregated word for which the exact lookup returns nothing
and the approximate lookup with bound 3 returns a non-empty sequence,
`countTexel` outputs a texel for that word and every output texel of that
word carries the coordinate of the last element of that sequence. -/
theorem countTexel_approx_last (env : Env) (hr : env.RangeOK) (hs : env.SortOK)
    (trie : Trie) (texs : List texel) (w : String)
    (hin : ∃ x ∈ texs, x.word = w) (hget : trie.Get w = none)
    (hne : trie.Levenshtein w 3 ≠ []) :
    (∃ t ∈ countTexel env trie texs, t.word = w) ∧
    ∀ t ∈ countTexel env trie texs, t.word = w →
      t.coord = ((trie.Levenshtein w 3).getLast hne).Node.info := by
  constructor
  · obtain ⟨v, hv, hvw⟩ := aggregate_find_of_mem texs w hin
    refine ⟨{ v with
        coord := ((trie.Levenshtein w 3).getLast hne).Node.info
        color := hash env v.word 3 }, ?_, hvw⟩
    rw [mem_countTexel env hr hs]
    exact ⟨v, by rw [hvw]; exact hv, resolveOne_approx_of_word env trie v w hvw hget hne⟩
  · intro t ht htw
    obtain ⟨v, _, hvw, hres⟩ := mem_countTexel_word env hr hs trie texs t ht
    rw [resolveOne_approx_of_word env trie v w (hvw.trans htw) hget hne] at hres
    rw [← Option.some.inj hres]

/-- Witness for C8: "dig" is not in the sample trie and its approximate lookup
returns the points `(3, 4)` and `(5, 6)`, in this order. -/
theorem countTexel_approx_last_witness :
    ((∃ x ∈ catDigTexels, x.word = "dig") ∧ sampleTrie.Get "dig" = none ∧
      sampleTrie.Levenshtein "dig" 3 ≠ []) ∧
    ((∃ t ∈ countTexel sampleEnv sampleTrie catDigTexels, t.word = "dig") ∧
    ∀ t ∈ countTexel sampleEnv sampleTrie catDigTexels, t.word = "dig" →
      t.coord = ((sampleTrie.Levenshtein "dig" 3).getLast (by decide)).Node.info) :=
  ⟨by decide,
    countTexel_approx_last sampleEnv sampleEnv_rangeOK sampleEnv_sortOK sampleTrie
      catDigTexels "dig" (by decide) (by decide) (by decide)⟩

/-- C9. A word of the input appears in the output of `countTexel` if and only
if its exact lookup succeeds or its approximate lookup with bound 3 is
non-empty; a word for which both fail is dropped, and `countTexel`, a total
function, still returns the texels of all other words. -/
theorem countTexel_word_iff (env : Env) (hr : env.RangeOK) (hs : env.SortOK)
    (trie : Trie) (texs : List texel) (w : String) :
    (∃ t ∈ countTexel env trie texs, t.word = w) ↔
      (∃ x ∈ texs, x.word = w) ∧
        (trie.Get w ≠ none ∨ trie.Levenshtein w 3 ≠ []) := by
  constructor
  · rintro ⟨t, ht, htw⟩
    obtain ⟨v, hv, hvw, hres⟩ := mem_countTexel_word env hr hs trie texs t ht
    have hw : v.word = w := hvw.trans htw
    refine ⟨(aggregate_isSome texs w).mp (by rw [← htw, hv]; rfl), ?_⟩
    by_contra hcon
    simp only [not_or, not_not] at hcon
    rw [← hw] at hcon
    rw [resolveOne_unknown env trie v hcon.1 hcon.2] at hres
    exact Option.noConfusion hres
  · rintro ⟨hin, hlook⟩
    obtain ⟨v, hv, hvw⟩ := aggregate_find_of_mem texs w hin
    have hfind : GoMap.find (aggregate texs) v.word = some v := by rw [hvw]; exact hv
    cases hg : trie.Get w with
    | some node =>
      exact ⟨_, (mem_countTexel env hr hs trie texs _).mpr
        ⟨v, hfind, resolveOne_exact env trie v node (by rw [hvw]; exact hg)⟩, hvw⟩
    | none =>
      have hne : trie.Levenshtein w 3 ≠ [] := by
        rcases hlook with h | h
        · exact absurd hg h
        · exact h
      exact ⟨_, (mem_countTexel env hr hs trie texs _).mpr
        ⟨v, hfind, resolveOne_approx_of_word env trie v w hvw hg hne⟩, hvw⟩

/-- Witness for C9: "zzz" has no exact and no approximate match in the sample
trie. -/
theorem countTexel_word_iff_witness :
    (sampleEnv.RangeOK ∧ sampleEnv.SortOK) ∧
    ((∃ t ∈ countTexel sampleEnv sampleTrie catDigTexels, t.word = "zzz") ↔
      (∃ x ∈ catDigTexels, x.word = "zzz") ∧
        (sampleTrie.Get "zzz" ≠ none ∨ sampleTrie.Levenshtein "zzz" 3 ≠ [])) :=
  ⟨⟨sampleEnv_rangeOK, sampleEnv_sortOK⟩,
    countTexel_word_iff sampleEnv sampleEnv_rangeOK sampleEnv_sortOK sampleTrie
      catDigTexels "zzz"⟩

/-! ## Paint order -/

/-- C10. The sequence `countTexel` returns, which `paintImage` paints front to
back, is in descending order of count: for positions `i < j` the count at `i`
is at least the count at `j`; so a texel of larger count, such as 10, stands
before a texel of smaller count, such as 2. -/
theorem countTexel_descending (env : Env) (hs : env.SortOK) (trie : Trie)
    (texs : List texel) (i j : Nat) (hi : i < (countTexel env trie texs).length)
    (hj : j < (countTexel env trie texs).length) :
    (i < j → ((countTexel env trie texs).get ⟨j, hj⟩).count ≤
      ((countTexel env trie texs).get ⟨i, hi⟩).count) ∧
    (((countTexel env trie texs).get ⟨j, hj⟩).count <
      ((countTexel env trie texs).get ⟨i, hi⟩).count → i < j) := by
  have hp : (countTexel env trie texs).Pairwise (fun a b => b.count ≤ a.count) :=
    isSorted_reverse_pairwise _ (hs _).2
  have hlt : ∀ (a b : Nat) (ha : a < (countTexel env trie texs).length)
      (hb : b < (countTexel env trie texs).length), a < b →
      ((countTexel env trie texs).get ⟨b, hb⟩).count ≤
        ((countTexel env trie texs).get ⟨a, ha⟩).count :=
    fun a b ha hb hab => List.pairwise_iff_get.mp hp ⟨a, ha⟩ ⟨b, hb⟩ hab
  refine ⟨hlt i j hi hj, fun hcnt => ?_⟩
  by_contra hcon
  rcases Nat.lt_or_eq_of_le (Nat.le_of_not_lt hcon) with h | h
  · have := hlt j i hj hi h
    omega
  · subst h
    omega

/-- Witness for C10: "cat" twice and "dig" once; "cat" stands first. -/
theorem countTexel_descending_witness :
    (sampleEnv.SortOK ∧ 0 < (countTexel sampleEnv sampleTrie catDigTexels).length ∧
      1 < (countTexel sampleEnv sampleTrie catDigTexels).length) ∧
    (((0 : Nat) < 1 →
      ((countTexel sampleEnv sampleTrie catDigTexels).get ⟨1, by decide⟩).count ≤
        ((countTexel sampleEnv sampleTrie catDigTexels).get ⟨0, by decide⟩).count) ∧
    (((countTexel sampleEnv sampleTrie catDigTexels).get ⟨1, by decide⟩).count <
      ((countTexel sampleEnv sampleTrie catDigTexels).get ⟨0, by decide⟩).count →
        (0 : Nat) < 1)) :=
  ⟨⟨sampleEnv_sortOK, by decide, by decide⟩,
    countTexel_descending sampleEnv sampleEnv_sortOK sampleTrie catDigTexels 0 1
      (by decide) (by decide)⟩

/-! ## The canvas: `Set`, `drawArea` -/

theorem mem_intRange (lo hi k : Int) : k ∈ intRange lo hi ↔ lo ≤ k ∧ k < hi := by
  unfold intRange
  rw [List.mem_map]
  constructor
  · rintro ⟨a, ha, rfl⟩
    rw [List.mem_range] at ha
    omega
  · rintro ⟨h1, h2⟩
    refine ⟨(k - lo).toNat, ?_, ?_⟩
    · rw [List.mem_range]
      omega
    · omega

theorem set_rect (img : image.RGBA) (x y : Int) (c : clr.RGBA) :
    (img.Set x y c).Rect = img.Rect := by
  unfold image.RGBA.Set
  split <;> rfl

theorem set_pix (img : image.RGBA) (x y : Int) (c : clr.RGBA) (m n : Int) :
    (img.Set x y c).pix m n =
      if (m = x ∧ n = y) ∧ (image.Point.mk m n).In img.Rect = true then c
      else img.pix m n := by
  unfold image.RGBA.Set
  by_cases hin : (image.Point.mk x y).In img.Rect = true
  · rw [if_pos hin]
    by_cases hmn : m = x ∧ n = y
    · obtain ⟨rfl, rfl⟩ := hmn
      simp [hin]
    · simp [hmn]
  · rw [if_neg hin]
    by_cases hmn : m = x ∧ n = y
    · obtain ⟨rfl, rfl⟩ := hmn
      simp [hin]
    · simp [hmn]

/-- The inner loop of `drawArea`: one column `m0`, rows `ns`. -/
theorem column_fold (c : clr.RGBA) (m0 : Int) (ns : List Int) (img : image.RGBA) :
    (ns.foldl (fun img n => img.Set m0 n c) img).Rect = img.Rect ∧
    ∀ m n, (ns.foldl (fun img n => img.Set m0 n c) img).pix m n =
      if (m = m0 ∧ n ∈ ns) ∧ (image.Point.mk m n).In img.Rect = true then c
      else img.pix m n := by
  induction ns generalizing img with
  | nil => simp
  | cons n0 rest ih =>
    rw [List.foldl_cons]
    obtain ⟨hr, hp⟩ := ih (img.Set m0 n0 c)
    refine ⟨hr.trans (set_rect _ _ _ _), fun m n => ?_⟩
    rw [hp, set_rect, set_pix]
    by_cases hin : (image.Point.mk m n).In img.Rect = true
    · by_cases hm : m = m0
      · subst hm
        by_cases h1 : n ∈ rest
        · simp [hin, h1]
        · by_cases h2 : n = n0
          · subst h2
            simp [hin]
          · simp [hin, h1, h2]
      · simp [hm]
    · simp [hin]

/-- The two nested loops of `drawArea`: columns `ms`, rows `ns`. -/
theorem area_fold (c : clr.RGBA) (ms ns : List Int) (img : image.RGBA) :
    (ms.foldl (fun img m => ns.foldl (fun img n => img.Set m n c) img) img).Rect =
      img.Rect ∧
    ∀ m n, (ms.foldl (fun img m => ns.foldl (fun img n => img.Set m n c) img) img).pix m n =
      if (m ∈ ms ∧ n ∈ ns) ∧ (image.Point.mk m n).In img.Rect = true then c
      else img.pix m n := by
  induction ms generalizing img with
  | nil => simp
  | cons m0 rest ih =>
    rw [List.foldl_cons]
    obtain ⟨hr0, hp0⟩ := column_fold c m0 ns img
    obtain ⟨hr, hp⟩ := ih (ns.foldl (fun img n => img.Set m0 n c) img)
    refine ⟨hr.trans hr0, fun m n => ?_⟩
    rw [hp, hr0, hp0]
    by_cases hin : (image.Point.mk m n).In img.Rect = true
    · by_cases hn : n ∈ ns
      · by_cases h1 : m ∈ rest
        · simp [hin, hn, h1]
        · by_cases h2 : m = m0
          · subst h2
            simp [hin, hn]
          · simp [hin, hn, h1, h2]
      · simp [hn]
    · simp [hin]

/-- The pixels of the canvas after `drawArea`, in terms of the jitter
`env.sqrtInt shift`. -/
theorem drawArea_pix (env : Env) (img : image.RGBA) (x y pixel shift : Int) (c : clr.RGBA) :
    (drawArea env img x y pixel shift c).Rect = img.Rect ∧
    ∀ m n, (drawArea env img x y pixel shift c).pix m n =
      if ((x + env.sqrtInt shift - pixel ≤ m ∧ m < x + env.sqrtInt shift + pixel) ∧
          (y + env.sqrtInt shift - pixel ≤ n ∧ n < y + env.sqrtInt shift + pixel)) ∧
          (image.Point.mk m n).In img.Rect = true then c
      else img.pix m n := by
  unfold drawArea
  obtain ⟨hr, hp⟩ := area_fold c
    (intRange (x + env.sqrtInt shift - pixel) (x + env.sqrtInt shift + pixel))
    (intRange (y + env.sqrtInt shift - pixel) (y + env.sqrtInt shift + pixel)) img
  refine ⟨hr, fun m n => ?_⟩
  rw [hp]
  simp only [mem_intRange]

theorem searchSqrt_eq (n m : Nat) (h : Nat.sqrt n ≤ m) : searchSqrt n m = Nat.sqrt n := by
  induction m with
  | zero =>
    simp only [searchSqrt]
    omega
  | succ k ih =>
    by_cases hk : (k + 1) * (k + 1) ≤ n
    · simp only [searchSqrt, hk, if_true]
      have : k + 1 ≤ Nat.sqrt n := Nat.le_sqrt.mpr hk
      omega
    · simp only [searchSqrt, hk, if_false]
      apply ih
      have : ¬ k + 1 ≤ Nat.sqrt n := fun hle => hk (Nat.le_sqrt.mp hle)
      omega

theorem sampleEnv_sqrtOK : sampleEnv.SqrtOK := by
  intro s _ _
  show ((searchSqrt s.toNat s.toNat : Nat) : Int) = Int.sqrt s
  rw [searchSqrt_eq _ _ (Nat.sqrt_le_self _)]
  rfl

/-- Below `2^52` the floating-point computation gives the integer square
root: the square root of `n` lies at least one unit in the last place below
the next integer, so rounding does not reach it. -/
theorem goSqrtNat_eq_sqrt (n : Nat) (hn : n < 4503599627370496) :
    goSqrtNat n = Nat.sqrt n := by
  have hf : roundFloat64 n = n := by
    unfold roundFloat64
    rw [if_pos (by omega)]
  unfold goSqrtNat
  simp only [hf]
  by_cases h0 : n = 0
  · subst h0
    simp
  · rw [if_neg h0]
    have hr1 : Nat.sqrt n * Nat.sqrt n ≤ n := Nat.sqrt_le n
    have hr2 : n < (Nat.sqrt n + 1) * (Nat.sqrt n + 1) := Nat.lt_succ_sqrt n
    have hrpos : Nat.sqrt n ≠ 0 := by
      intro h
      rw [h] at hr2
      omega
    have hrlt : Nat.sqrt n < 67108864 := by
      by_contra hcon
      have h1 : 67108864 ≤ Nat.sqrt n := Nat.le_of_not_lt hcon
      have h2 : 67108864 * 67108864 ≤ Nat.sqrt n * Nat.sqrt n := Nat.mul_le_mul h1 h1
      omega
    have hk1 : 2 ^ Nat.log 2 (Nat.sqrt n) ≤ Nat.sqrt n := Nat.pow_log_le_self 2 hrpos
    have hk : Nat.log 2 (Nat.sqrt n) < 26 := by
      by_contra hcon
      have h1 : 2 ^ 26 ≤ 2 ^ Nat.log 2 (Nat.sqrt n) :=
        Nat.pow_le_pow_right (by decide) (Nat.le_of_not_lt hcon)
      have h2 : (2 : Nat) ^ 26 = 67108864 := by norm_num
      omega
    have he : 27 ≤ 52 - Nat.log 2 (Nat.sqrt n) := by omega
    generalize 52 - Nat.log 2 (Nat.sqrt n) = e at he ⊢
    have hE : 134217728 ≤ 2 ^ e := by
      have h1 : 2 ^ 27 ≤ 2 ^ e := Nat.pow_le_pow_right (by decide) he
      have h2 : (2 : Nat) ^ 27 = 134217728 := by norm_num
      omega
    have h4 : 4 ^ e = 2 ^ e * 2 ^ e := by
      rw [← Nat.mul_pow]
    rw [h4]
    generalize 2 ^ e = E at hE ⊢
    generalize hr : Nat.sqrt n = r at hr1 hr2 hrlt ⊢
    have hq1 : Nat.sqrt (n * (E * E)) * Nat.sqrt (n * (E * E)) ≤ n * (E * E) :=
      Nat.sqrt_le _
    have hlow : r * E ≤ Nat.sqrt (n * (E * E)) := by
      rw [Nat.le_sqrt]
      calc r * E * (r * E) = r * r * (E * E) := by ring
        _ ≤ n * (E * E) := Nat.mul_le_mul_right _ hr1
    have hTle : n * (E * E) + E * E ≤ (r + 1) * E * ((r + 1) * E) := by
      calc n * (E * E) + E * E = (n + 1) * (E * E) := by ring
        _ ≤ (r + 1) * (r + 1) * (E * E) := Nat.mul_le_mul_right _ hr2
        _ = (r + 1) * E * ((r + 1) * E) := by ring
    have hEpos : 0 < E * E := Nat.mul_pos (by omega) (by omega)
    have hupp : Nat.sqrt (n * (E * E)) < (r + 1) * E := by
      rw [Nat.sqrt_lt]
      omega
    generalize Nat.sqrt (n * (E * E)) = q at hq1 hlow hupp ⊢
    apply Nat.div_eq_of_lt_le
    · split
      · exact hlow
      · omega
    · split
      · exact hupp
      · rename_i hnot
        by_contra hcon
        have hqN : q + 1 = (r + 1) * E := by omega
        have h1 : (q + 1) * (q + 1) = q * q + q + q + 1 := by ring
        rw [← hqN, h1] at hTle
        have h2 : E * E ≤ q := by omega
        have h3 : E * E < (r + 1) * E := by omega
        have h5 : E < r + 1 := Nat.lt_of_mul_lt_mul_right h3
        omega

theorem floatEnv_sqrtOK : floatEnv.SqrtOK := by
  intro s h0 h1
  show goSqrtInt s = Int.sqrt s
  unfold goSqrtInt
  rw [if_pos h0, goSqrtNat_eq_sqrt _ (by omega)]
  rfl

/-- At `s = 2^52 + 2^27 = 67108865^2 - 1` the floating-point square root is
rounded up to `67108865`, one more than the integer square root. -/
theorem goSqrtInt_rounds_up : goSqrtInt 4503599761588224 = 67108865 := by
  have hf : roundFloat64 4503599761588224 = 4503599761588224 := by
    unfold roundFloat64
    rw [if_pos (by norm_num)]
  have hs : Nat.sqrt 4503599761588224 = 67108864 :=
    (Nat.eq_sqrt.mpr ⟨by norm_num, by norm_num⟩).symm
  have hl : Nat.log 2 67108864 = 26 :=
    Nat.log_eq_of_pow_le_of_lt_pow (by norm_num) (by norm_num)
  have hq : Nat.sqrt (4503599761588224 * 4 ^ 26) = 4503599694479359 :=
    (Nat.eq_sqrt.mpr ⟨by norm_num, by norm_num⟩).symm
  unfold goSqrtInt
  rw [if_pos (by norm_num)]
  have hn : goSqrtNat 4503599761588224 = 67108865 := by
    unfold goSqrtNat
    simp only [hf, hs, hl]
    norm_num [hq]
  have ht : (4503599761588224 : Int).toNat = 4503599761588224 := rfl
  rw [ht, hn]
  rfl

theorem rgbaAt_eq (img : image.RGBA) (m n : Int) :
    img.RGBAAt m n = if (image.Point.mk m n).In img.Rect = true then img.pix m n
      else ⟨0, 0, 0, 0⟩ := rfl

/-- The pixels read from the canvas after `drawArea`, for every position
signal, in terms of the jitter `env.sqrtInt shift`. -/
theorem drawArea_rgbaAt (env : Env) (img : image.RGBA) (x y p s : Int) (c : clr.RGBA)
    (m n : Int) :
    (drawArea env img x y p s c).RGBAAt m n =
      if (image.Point.mk m n).In img.Rect = true ∧
          (x + env.sqrtInt s - p ≤ m ∧ m < x + env.sqrtInt s + p) ∧
          (y + env.sqrtInt s - p ≤ n ∧ n < y + env.sqrtInt s + p) then c
      else img.RGBAAt m n := by
  obtain ⟨hr, hp⟩ := drawArea_pix env img x y p s c
  rw [rgbaAt_eq, rgbaAt_eq, hr, hp]
  by_cases hin : (image.Point.mk m n).In img.Rect = true
  · simp [hin]
  · simp [hin]

theorem int_sqrt_rounds_up : Int.sqrt 4503599761588224 = 67108864 := by
  have hs : Nat.sqrt 4503599761588224 = 67108864 :=
    (Nat.eq_sqrt.mpr ⟨by norm_num, by norm_num⟩).symm
  show ((Nat.sqrt (4503599761588224 : Int).toNat : Nat) : Int) = 67108864
  have ht : (4503599761588224 : Int).toNat = 4503599761588224 := rfl
  rw [ht, hs]
  rfl

/-- C11, as stated, fails: at the position signal
`s = 2^52 + 2^27 = 67108865^2 - 1`, whose integer square root is `67108864`,
the floating-point expression `int(math.Sqrt(float64(s)))` is `67108865`.
With base position `(-67108864, -67108864)` and half-extent 1 the claim has
the square at `[-1, 1) x [-1, 1)`; the code paints `[0, 2) x [0, 2)`, so the
pixel `(1, 1)` is set although it lies outside the claimed square. -/
theorem drawArea_sqrt_counterexample :
    ((0 : Int) ≤ 4503599761588224 ∧ Int.sqrt 4503599761588224 = 67108864 ∧
      floatEnv.sqrtInt 4503599761588224 = 67108865) ∧
    (drawArea floatEnv blankCanvas (-67108864) (-67108864) 1 4503599761588224
        ⟨9, 9, 9, 255⟩).RGBAAt 1 1 = ⟨9, 9, 9, 255⟩ ∧
    (if (image.Point.mk 1 1).In blankCanvas.Rect = true ∧
          (-67108864 + Int.sqrt 4503599761588224 - 1 ≤ (1 : Int) ∧
            (1 : Int) < -67108864 + Int.sqrt 4503599761588224 + 1) ∧
          (-67108864 + Int.sqrt 4503599761588224 - 1 ≤ (1 : Int) ∧
            (1 : Int) < -67108864 + Int.sqrt 4503599761588224 + 1)
        then (⟨9, 9, 9, 255⟩ : clr.RGBA) else blankCanvas.RGBAAt 1 1) = ⟨0, 0, 0, 0⟩ := by
  have hfl : floatEnv.sqrtInt 4503599761588224 = 67108865 := goSqrtInt_rounds_up
  refine ⟨⟨by norm_num, int_sqrt_rounds_up, hfl⟩, ?_, ?_⟩
  · rw [drawArea_rgbaAt, hfl]
    decide
  · rw [int_sqrt_rounds_up]
    decide

/-- C11 (amended). For every canvas, base position `(x, y)`, half-extent `p`
and colour `c`, and every position signal `s` with `0 ≤ s < 2^52`, `drawArea`
sets to `c` exactly the pixels `(m, n)` of the canvas with
`x' - p ≤ m < x' + p` and `y' - p ≤ n < y' + p`, where
`x' = x + floor(sqrt s)` and `y' = y + floor(sqrt s)`; every other pixel keeps
its value, the rectangle of the canvas is unchanged, and the positions of the
square outside the canvas are skipped (`drawArea` is total).  For every
position signal, also one outside that range, the same holds with the jitter
`int(math.Sqrt(float64(s)))` that the code computes in place of
`floor(sqrt s)`.  The floating-point expression is taken to be the integer
square root for `0 ≤ s < 2^52`. -/
theorem drawArea_paints_square (env : Env) (hsq : env.SqrtOK) (img : image.RGBA)
    (x y p s : Int) (c : clr.RGBA) (hs : 0 ≤ s) (hlt : s < 4503599627370496) :
    (drawArea env img x y p s c).Rect = img.Rect ∧
    (∀ m n : Int, (drawArea env img x y p s c).RGBAAt m n =
      if (image.Point.mk m n).In img.Rect = true ∧
          (x + Int.sqrt s - p ≤ m ∧ m < x + Int.sqrt s + p) ∧
          (y + Int.sqrt s - p ≤ n ∧ n < y + Int.sqrt s + p) then c
      else img.RGBAAt m n) ∧
    ∀ (s' : Int) (m n : Int), (drawArea env img x y p s' c).RGBAAt m n =
      if (image.Point.mk m n).In img.Rect = true ∧
          (x + env.sqrtInt s' - p ≤ m ∧ m < x + env.sqrtInt s' + p) ∧
          (y + env.sqrtInt s' - p ≤ n ∧ n < y + env.sqrtInt s' + p) then c
      else img.RGBAAt m n := by
  refine ⟨(drawArea_pix env img x y p s c).1, fun m n => ?_,
    fun s' m n => drawArea_rgbaAt env img x y p s' c m n⟩
  rw [drawArea_rgbaAt, hsq s hs hlt]

/-- Witness for C11 (amended): a block of half-extent 2 at base `(6, 1)` with
position signal 5, whose right part lies outside the 8 by 8 canvas, with the
square root computed in floating point. -/
theorem drawArea_paints_square_witness :
    (floatEnv.SqrtOK ∧ (0 : Int) ≤ 5 ∧ (5 : Int) < 4503599627370496) ∧
    ((drawArea floatEnv blankCanvas 6 1 2 5 ⟨9, 9, 9, 255⟩).Rect = blankCanvas.Rect ∧
    (∀ m n : Int, (drawArea floatEnv blankCanvas 6 1 2 5 ⟨9, 9, 9, 255⟩).RGBAAt m n =
      if (image.Point.mk m n).In blankCanvas.Rect = true ∧
          (6 + Int.sqrt 5 - 2 ≤ m ∧ m < 6 + Int.sqrt 5 + 2) ∧
          (1 + Int.sqrt 5 - 2 ≤ n ∧ n < 1 + Int.sqrt 5 + 2) then ⟨9, 9, 9, 255⟩
      else blankCanvas.RGBAAt m n) ∧
    ∀ (s' : Int) (m n : Int),
      (drawArea floatEnv blankCanvas 6 1 2 s' ⟨9, 9, 9, 255⟩).RGBAAt m n =
      if (image.Point.mk m n).In blankCanvas.Rect = true ∧
          (6 + floatEnv.sqrtInt s' - 2 ≤ m ∧ m < 6 + floatEnv.sqrtInt s' + 2) ∧
          (1 + floatEnv.sqrtInt s' - 2 ≤ n ∧ n < 1 + floatEnv.sqrtInt s' + 2)
      then ⟨9, 9, 9, 255⟩
      else blankCanvas.RGBAAt m n) :=
  ⟨⟨floatEnv_sqrtOK, by decide, by decide⟩,
    drawArea_paints_square floatEnv floatEnv_sqrtOK blankCanvas 6 1 2 5 ⟨9, 9, 9, 255⟩
      (by decide) (by decide)⟩

theorem intRange_empty (lo hi : Int) (h : hi ≤ lo) : intRange lo hi = [] := by
  unfold intRange
  have : (hi - lo).toNat = 0 := by omega
  rw [this]
  rfl

theorem drawArea_zero (env : Env) (img : image.RGBA) (x y shift : Int) (c : clr.RGBA) :
    drawArea env img x y 0 shift c = img := by
  unfold drawArea
  simp only
  rw [intRange_empty (x + env.sqrtInt shift - 0) _ (by omega)]
  rfl

/-- C12. For every texel with `0 ≤ count < 4`, `paintImage` computes the
half-extent `count / 4 = 0`; `drawArea` with half-extent 0 returns the canvas
as it was, whatever the position, position signal and colour; and the
iteration of `paintImage` for a texel that carries its three colour bytes
returns the canvas unchanged, without a panic. -/
theorem paintStep_small_count (env : Env) (dim : Int) (img : image.RGBA) (t : texel)
    (h0 : 0 ≤ t.count) (h4 : t.count < 4) (hc : 3 ≤ t.color.length) :
    Int.tdiv t.count 4 = 0 ∧
    (∀ (x y shift : Int) (c : clr.RGBA), drawArea env img x y 0 shift c = img) ∧
    paintStep env dim img t = some img := by
  have hpx : Int.tdiv t.count 4 = 0 := by
    rw [Int.tdiv_eq_ediv h0 (by decide)]
    omega
  refine ⟨hpx, fun x y shift c => drawArea_zero env img x y shift c, ?_⟩
  unfold paintStep paintColor
  match hcol : t.color, hc with
  | r :: g :: b :: rest, _ =>
    simp only [hpx]
    rw [drawArea_zero]

/-- Witness for C12: a texel of count 3 on the blank canvas. -/
theorem paintStep_small_count_witness :
    ((0 : Int) ≤ ({ texel.zero with count := 3, seq := 7, color := [1, 2, 3] } : texel).count ∧
      ({ texel.zero with count := 3, seq := 7, color := [1, 2, 3] } : texel).count < 4 ∧
      3 ≤ ({ texel.zero with count := 3, seq := 7, color := [1, 2, 3] } : texel).color.length) ∧
    (Int.tdiv ({ texel.zero with count := 3, seq := 7, color := [1, 2, 3] } : texel).count 4 = 0 ∧
    (∀ (x y shift : Int) (c : clr.RGBA), drawArea sampleEnv blankCanvas x y 0 shift c = blankCanvas) ∧
    paintStep sampleEnv 8 blankCanvas
      { texel.zero with count := 3, seq := 7, color := [1, 2, 3] } = some blankCanvas) :=
  ⟨by decide,
    paintStep_small_count sampleEnv 8 blankCanvas
      { texel.zero with count := 3, seq := 7, color := [1, 2, 3] }
      (by decide) (by decide) (by decide)⟩

/-! ## The loop of `paintImage` -/

theorem paintColor_isSome (t : texel) (h : 3 ≤ t.color.length) :
    ∃ c, paintColor t = some c := by
  unfold paintColor
  match hcol : t.color, h with
  | r :: g :: b :: rest, _ => exact ⟨_, rfl⟩

theorem paintColor_alpha (t : texel) (c : clr.RGBA) (h : paintColor t = some c) :
    c.A = 255 := by
  unfold paintColor at h
  split at h
  · rw [← Option.some.inj h]
  · exact Option.noConfusion h

theorem paintStep_eq_some (env : Env) (dim : Int) (img img1 : image.RGBA) (t : texel)
    (h : paintStep env dim img t = some img1) :
    ∃ c, paintColor t = some c ∧
      img1 = drawArea env img (env.scale t.coord.x dim) (env.scale t.coord.y dim)
        (Int.tdiv t.count 4) t.seq c := by
  unfold paintStep at h
  cases hc : paintColor t with
  | none =>
    rw [hc] at h
    exact Option.noConfusion h
  | some c =>
    rw [hc] at h
    exact ⟨c, rfl, (Option.some.inj h).symm⟩

theorem paintStep_pix (env : Env) (dim : Int) (img img1 : image.RGBA) (t : texel)
    (h : paintStep env dim img t = some img1) :
    img1.Rect = img.Rect ∧
    ∀ m n, img1.pix m n =
      if blockCovers env dim t m n = true ∧ (image.Point.mk m n).In img.Rect = true
      then texelColor t else img.pix m n := by
  obtain ⟨c, hc, rfl⟩ := paintStep_eq_some env dim img img1 t h
  obtain ⟨hr, hp⟩ := drawArea_pix env img (env.scale t.coord.x dim)
    (env.scale t.coord.y dim) (Int.tdiv t.count 4) t.seq c
  refine ⟨hr, fun m n => ?_⟩
  rw [hp]
  simp only [blockCovers, texelColor, hc, Option.getD_some, decide_eq_true_eq]

theorem lastCover_cons (env : Env) (dim : Int) (t : texel) (rest : List texel) (m n : Int) :
    lastCover env dim (t :: rest) m n =
      match lastCover env dim rest m n with
      | some t' => some t'
      | none => if blockCovers env dim t m n = true then some t else none := by
  unfold lastCover
  by_cases hcov : blockCovers env dim t m n = true
  · have hf : List.filter (fun t => blockCovers env dim t m n) (t :: rest) =
        t :: List.filter (fun t => blockCovers env dim t m n) rest := by
      simp [List.filter_cons, hcov]
    rw [hf, List.getLast?_cons]
    cases (List.filter (fun t => blockCovers env dim t m n) rest).getLast? <;> simp [hcov]
  · have hf : List.filter (fun t => blockCovers env dim t m n) (t :: rest) =
        List.filter (fun t => blockCovers env dim t m n) rest := by
      simp [List.filter_cons, hcov]
    rw [hf]
    cases (List.filter (fun t => blockCovers env dim t m n) rest).getLast? <;> simp [hcov]

/-- The pixels after the loop of `paintImage`: a position of the canvas holds
the colour of the last texel whose block contains it, and its former value
when there is none. -/
theorem paintLoop_pix (env : Env) (dim : Int) (data : List texel) (img img' : image.RGBA)
    (h : paintLoop env dim img data = some img') :
    img'.Rect = img.Rect ∧
    ∀ m n, img'.pix m n =
      if (image.Point.mk m n).In img.Rect = true then
        match lastCover env dim data m n with
        | some t => texelColor t
        | none => img.pix m n
      else img.pix m n := by
  induction data generalizing img with
  | nil =>
    simp only [paintLoop, Option.some.injEq] at h
    subst h
    refine ⟨rfl, fun m n => ?_⟩
    simp [lastCover]
  | cons t rest ih =>
    unfold paintLoop at h
    cases hst : paintStep env dim img t with
    | none =>
      rw [hst] at h
      exact Option.noConfusion h
    | some img1 =>
      rw [hst] at h
      obtain ⟨hr1, hp1⟩ := paintStep_pix env dim img img1 t hst
      obtain ⟨hr, hp⟩ := ih img1 h
      refine ⟨hr.trans hr1, fun m n => ?_⟩
      rw [hp, hr1, hp1, lastCover_cons]
      by_cases hin : (image.Point.mk m n).In img.Rect = true
      · cases lastCover env dim rest m n with
        | some t' => simp [hin]
        | none =>
          by_cases hcov : blockCovers env dim t m n = true
          · simp [hin, hcov]
          · simp [hin, hcov]
      · simp [hin]

theorem paintLoop_isSome (env : Env) (dim : Int) (data : List texel) (img : image.RGBA)
    (h : ∀ t ∈ data, ∃ c, paintColor t = some c) :
    ∃ img', paintLoop env dim img data = some img' := by
  induction data generalizing img with
  | nil => exact ⟨img, rfl⟩
  | cons t rest ih =>
    obtain ⟨c, hc⟩ := h t (List.mem_cons_self _ _)
    unfold paintLoop
    simp only [paintStep, hc]
    exact ih _ (fun x hx => h x (List.mem_cons_of_mem _ hx))

theorem paintLoop_none (env : Env) (dim : Int) (data : List texel) (img : image.RGBA)
    (h : ∃ t ∈ data, paintColor t = none) : paintLoop env dim img data = none := by
  induction data generalizing img with
  | nil =>
    obtain ⟨t, ht, _⟩ := h
    simp at ht
  | cons t rest ih =>
    unfold paintLoop
    cases hc : paintColor t with
    | none => simp [paintStep, hc]
    | some c =>
      simp only [paintStep, hc]
      apply ih
      obtain ⟨x, hx, hxn⟩ := h
      rcases List.mem_cons.mp hx with rfl | hx'
      · rw [hc] at hxn
        exact Option.noConfusion hxn
      · exact ⟨x, hx', hxn⟩

theorem newRGBA_some (r : image.Rectangle) (img0 : image.RGBA)
    (h : image.NewRGBA r = some img0) :
    img0 = { Rect := r, pix := fun _ _ => ⟨0, 0, 0, 0⟩ } := by
  unfold image.NewRGBA at h
  split at h
  · exact Option.noConfusion h
  · exact (Option.some.inj h).symm

/-- On a rectangle of side `2^31` the function `image.NewRGBA` panics, and on
one of side 256 it returns. -/
theorem newRGBA_huge :
    (image.NewRGBA ⟨⟨0, 0⟩, ⟨2147483648, 2147483648⟩⟩).isSome = false ∧
    (image.NewRGBA ⟨⟨0, 0⟩, ⟨-1, -1⟩⟩).isSome = false ∧
    (image.NewRGBA ⟨⟨0, 0⟩, ⟨256, 256⟩⟩).isSome = true := by
  decide

theorem in_canvas (dim m n : Int) :
    (image.Point.mk m n).In ⟨⟨0, 0⟩, ⟨dim, dim⟩⟩ = true ↔
      0 ≤ m ∧ m < dim ∧ 0 ≤ n ∧ n < dim := by
  simp [image.Point.In]

/-- C13. For every list of texels that carry their three colour bytes, painted
by `paintImage` on a canvas of side `dim`: whenever `image.NewRGBA` returns
the canvas, `paintImage` returns; and for every canvas `paintImage` returns
and every pixel of it: if no texel's block contains the pixel it is all-zero;
otherwise it holds the colour of the last texel of the list whose block
contains it, with alpha 255. -/
theorem paintImage_pixels (env : Env) (data : List texel) (dim : Int)
    (hcol : ∀ t ∈ data, 3 ≤ t.color.length) :
    (∀ img0, image.NewRGBA ⟨⟨0, 0⟩, ⟨dim, dim⟩⟩ = some img0 →
      ∃ img, paintImage env data dim = some img) ∧
    ∀ img, paintImage env data dim = some img →
      ∀ m n : Int, 0 ≤ m → m < dim → 0 ≤ n → n < dim →
        match lastCover env dim data m n with
        | none => img.RGBAAt m n = ⟨0, 0, 0, 0⟩
        | some t => paintColor t = some (img.RGBAAt m n) ∧ (img.RGBAAt m n).A = 255 := by
  have hsome : ∀ t ∈ data, ∃ c, paintColor t = some c :=
    fun t ht => paintColor_isSome t (hcol t ht)
  constructor
  · intro img0 hnew
    obtain ⟨img, himg⟩ := paintLoop_isSome env dim data img0 hsome
    refine ⟨img, ?_⟩
    unfold paintImage
    rw [hnew]
    exact himg
  · intro img hpaint m n h1 h2 h3 h4
    unfold paintImage at hpaint
    cases hnew : image.NewRGBA ⟨⟨0, 0⟩, ⟨dim, dim⟩⟩ with
    | none =>
      rw [hnew] at hpaint
      exact Option.noConfusion hpaint
    | some img0 =>
      rw [hnew] at hpaint
      have h0 := newRGBA_some _ img0 hnew
      subst h0
      obtain ⟨hr, hp⟩ := paintLoop_pix env dim data _ img hpaint
      have hin : (image.Point.mk m n).In ⟨⟨0, 0⟩, ⟨dim, dim⟩⟩ = true :=
        (in_canvas dim m n).mpr ⟨h1, h2, h3, h4⟩
      have hat : img.RGBAAt m n = img.pix m n := by
        rw [rgbaAt_eq, hr, if_pos hin]
      rw [hat, hp, if_pos hin]
      cases hl : lastCover env dim data m n with
      | none => rfl
      | some t =>
        have ht : t ∈ data :=
          List.mem_of_mem_filter (List.mem_of_mem_getLast? hl)
        obtain ⟨c, hc⟩ := hsome t ht
        simp only [texelColor, hc, Option.getD_some]
        exact ⟨trivial, paintColor_alpha t c hc⟩

/-- Witness for C13: the two overlapping blocks of "cat" and "bird" on a
canvas of side 16, which `paintImage` returns. -/
theorem paintImage_pixels_witness :
    ((∀ t ∈ overlapTexels, 3 ≤ t.color.length) ∧
      (paintImage sampleEnv overlapTexels 16).isSome = true) ∧
    ((∀ img0, image.NewRGBA ⟨⟨0, 0⟩, ⟨16, 16⟩⟩ = some img0 →
      ∃ img, paintImage sampleEnv overlapTexels 16 = some img) ∧
    ∀ img, paintImage sampleEnv overlapTexels 16 = some img →
      ∀ m n : Int, 0 ≤ m → m < 16 → 0 ≤ n → n < 16 →
        match lastCover sampleEnv 16 overlapTexels m n with
        | none => img.RGBAAt m n = ⟨0, 0, 0, 0⟩
        | some t => paintColor t = some (img.RGBAAt m n) ∧ (img.RGBAAt m n).A = 255) :=
  ⟨by decide, paintImage_pixels sampleEnv overlapTexels 16 (by decide)⟩

/-! ## Two runs of the pipeline -/

theorem processTexels_congr (env1 env2 : Env) (h : env2.caseTable = env1.caseTable)
    (words : List String) : processTexels env2 words = processTexels env1 words := by
  simp only [processTexels, toTexel, cleanWord, h]

theorem resolveOne_congr (env1 env2 : Env) (h : env2.blake2b = env1.blake2b)
    (trie : Trie) (v : texel) : resolveOne env2 trie v = resolveOne env1 trie v := by
  simp only [resolveOne, hash, h]

theorem paintLoop_congr (env1 env2 : Env) (h1 : env2.sqrtInt = env1.sqrtInt)
    (h2 : env2.scale = env1.scale) (dim : Int) (data : List texel) (img : image.RGBA) :
    paintLoop env2 dim img data = paintLoop env1 dim img data := by
  induction data generalizing img with
  | nil => rfl
  | cons t rest ih =>
    have hstep : paintStep env2 dim img t = paintStep env1 dim img t := by
      simp only [paintStep, drawArea, h1, h2]
    unfold paintLoop
    rw [hstep]
    cases paintStep env1 dim img t with
    | none => rfl
    | some img1 => exact ih img1

theorem paintImage_congr (env1 env2 : Env) (h1 : env2.sqrtInt = env1.sqrtInt)
    (h2 : env2.scale = env1.scale) (data : List texel) (dim : Int) :
    paintImage env2 data dim = paintImage env1 data dim := by
  unfold paintImage
  cases image.NewRGBA ⟨⟨0, 0⟩, ⟨dim, dim⟩⟩ with
  | none => rfl
  | some img => exact paintLoop_congr env1 env2 h1 h2 dim data img

theorem rgba_ext (a b : image.RGBA) (hr : a.Rect = b.Rect) (hp : a.pix = b.pix) : a = b := by
  cases a
  cases b
  simp only at hr hp
  subst hr
  subst hp
  rfl

/-- In a slice of descending counts, the last texel whose block contains a
position has the least count among the texels whose block contains it. -/
theorem lastCover_least (env : Env) (dim : Int) (data : List texel) (m n : Int) (a : texel)
    (hp : data.Pairwise (fun a b => b.count ≤ a.count))
    (h : lastCover env dim data m n = some a) :
    a ∈ data ∧ blockCovers env dim a m n = true ∧
      ∀ x ∈ data, blockCovers env dim x m n = true → a.count ≤ x.count := by
  unfold lastCover at h
  have hmem : a ∈ data.filter (fun t => blockCovers env dim t m n) :=
    List.mem_of_mem_getLast? h
  have hpf : (data.filter (fun t => blockCovers env dim t m n)).Pairwise
      (fun a b => b.count ≤ a.count) := hp.sublist (List.filter_sublist _)
  have hsplit := List.dropLast_append_getLast? a h
  rw [← hsplit, List.pairwise_append] at hpf
  refine ⟨List.mem_of_mem_filter hmem, by simpa using (List.mem_filter.mp hmem).2, ?_⟩
  intro x hx hcov
  have hxf : x ∈ data.filter (fun t => blockCovers env dim t m n) :=
    List.mem_filter.mpr ⟨hx, by simpa using hcov⟩
  rw [← hsplit, List.mem_append] at hxf
  rcases hxf with hxd | hxa
  · exact hpf.2.2 x hxd a (by simp)
  · simp only [List.mem_singleton] at hxa
    rw [hxa]

theorem lastCover_none (env : Env) (dim : Int) (data : List texel) (m n : Int)
    (h : lastCover env dim data m n = none) :
    ∀ x ∈ data, blockCovers env dim x m n ≠ true := by
  unfold lastCover at h
  rw [List.getLast?_eq_none_iff] at h
  intro x hx hcov
  have : x ∈ data.filter (fun t => blockCovers env dim t m n) :=
    List.mem_filter.mpr ⟨hx, by simpa using hcov⟩
  rw [h] at this
  simp at this

/-- The colour at a position of the canvas does not depend on which of two
descending arrangements of the same texels is painted, when texels of equal
count whose blocks meet at the position are painted in the same colour. -/
theorem lastCover_color_eq (env : Env) (dim : Int) (d1 d2 : List texel) (m n : Int)
    (hmem : ∀ t, t ∈ d1 ↔ t ∈ d2)
    (hp1 : d1.Pairwise (fun a b => b.count ≤ a.count))
    (hp2 : d2.Pairwise (fun a b => b.count ≤ a.count))
    (hov : ∀ a ∈ d1, ∀ b ∈ d1, a.count = b.count →
      blockCovers env dim a m n = true → blockCovers env dim b m n = true →
      paintColor a = paintColor b)
    (old : clr.RGBA) :
    (match lastCover env dim d1 m n with
      | some t => texelColor t
      | none => old) =
    (match lastCover env dim d2 m n with
      | some t => texelColor t
      | none => old) := by
  cases h1 : lastCover env dim d1 m n with
  | none =>
    cases h2 : lastCover env dim d2 m n with
    | none => rfl
    | some b =>
      obtain ⟨hb, hcb, _⟩ := lastCover_least env dim d2 m n b hp2 h2
      exact absurd hcb (lastCover_none env dim d1 m n h1 b ((hmem b).mpr hb))
  | some a =>
    obtain ⟨ha, hca, hla⟩ := lastCover_least env dim d1 m n a hp1 h1
    cases h2 : lastCover env dim d2 m n with
    | none =>
      exact absurd hca (lastCover_none env dim d2 m n h2 a ((hmem a).mp ha))
    | some b =>
      obtain ⟨hb, hcb, hlb⟩ := lastCover_least env dim d2 m n b hp2 h2
      have hb1 : b ∈ d1 := (hmem b).mpr hb
      have hab : a.count = b.count :=
        le_antisymm (hla b hb1 hcb) (hlb a ((hmem a).mp ha) hca)
      simp only [texelColor, hov a ha b hb1 hab hca hcb]

theorem paintImage_order_irrelevant (env : Env) (dim : Int) (d1 d2 : List texel)
    (hmem : ∀ t, t ∈ d1 ↔ t ∈ d2)
    (hp1 : d1.Pairwise (fun a b => b.count ≤ a.count))
    (hp2 : d2.Pairwise (fun a b => b.count ≤ a.count))
    (hov : ∀ a ∈ d1, ∀ b ∈ d1, a.count = b.count →
      ∀ m n : Int, 0 ≤ m → m < dim → 0 ≤ n → n < dim →
      blockCovers env dim a m n = true → blockCovers env dim b m n = true →
      paintColor a = paintColor b) :
    paintImage env d2 dim = paintImage env d1 dim := by
  unfold paintImage
  cases hnew : image.NewRGBA ⟨⟨0, 0⟩, ⟨dim, dim⟩⟩ with
  | none => rfl
  | some img0 =>
    have hrect : img0.Rect = ⟨⟨0, 0⟩, ⟨dim, dim⟩⟩ := by
      rw [newRGBA_some _ img0 hnew]
    simp only
    by_cases hall : ∀ t ∈ d1, ∃ c, paintColor t = some c
    · have hall2 : ∀ t ∈ d2, ∃ c, paintColor t = some c :=
        fun t ht => hall t ((hmem t).mpr ht)
      obtain ⟨img1, h1⟩ := paintLoop_isSome env dim d1 img0 hall
      obtain ⟨img2, h2⟩ := paintLoop_isSome env dim d2 img0 hall2
      rw [h1, h2]
      obtain ⟨hr1, hx1⟩ := paintLoop_pix env dim d1 img0 img1 h1
      obtain ⟨hr2, hx2⟩ := paintLoop_pix env dim d2 img0 img2 h2
      congr 1
      apply rgba_ext _ _ (hr2.trans hr1.symm)
      funext m n
      rw [hx1, hx2]
      by_cases hin : (image.Point.mk m n).In img0.Rect = true
      · rw [if_pos hin, if_pos hin]
        have hc : 0 ≤ m ∧ m < dim ∧ 0 ≤ n ∧ n < dim := by
          rw [hrect] at hin
          exact (in_canvas dim m n).mp hin
        exact (lastCover_color_eq env dim d1 d2 m n hmem hp1 hp2
          (fun a ha b hb hab => hov a ha b hb hab m n hc.1 hc.2.1 hc.2.2.1 hc.2.2.2)
          (img0.pix m n)).symm
      · rw [if_neg hin, if_neg hin]
    · have hex : ∃ t ∈ d1, paintColor t = none := by
        by_contra hcon
        apply hall
        intro t ht
        cases hc : paintColor t with
        | none => exact absurd ⟨t, ht, hc⟩ hcon
        | some c => exact ⟨c, rfl⟩
      have hex2 : ∃ t ∈ d2, paintColor t = none := by
        obtain ⟨t, ht, hc⟩ := hex
        exact ⟨t, (hmem t).mp ht, hc⟩
      rw [paintLoop_none env dim d1 img0 hex, paintLoop_none env dim d2 img0 hex2]

theorem sampleEnvRev_rangeOK : sampleEnvRev.RangeOK :=
  fun m => List.reverse_perm m

theorem sampleEnvRev_sortOK : sampleEnvRev.SortOK :=
  sampleEnv_sortOK

theorem sampleEnv_sameLibrary : Env.SameLibrary sampleEnv sampleEnvRev :=
  ⟨rfl, rfl, rfl, rfl, rfl⟩

/-- C14, as stated, fails: with "cat" and "bird" four times each and both
resolved to the same point, their blocks coincide; the run that visits the
map in insertion order leaves the colour of "bird" at pixel `(5, 5)`, the run
that visits it in the reverse order leaves the colour of "cat". -/
theorem process_order_counterexample :
    Env.SameLibrary sampleEnv sampleEnvRev ∧
    (sampleEnv.RangeOK ∧ sampleEnv.SortOK) ∧ (sampleEnvRev.RangeOK ∧ sampleEnvRev.SortOK) ∧
    (process sampleEnv overlapTrie "cat bird cat bird cat bird cat bird" 16).map
        (fun img => img.RGBAAt 5 5) = some ⟨4, 4, 4, 255⟩ ∧
    (process sampleEnvRev overlapTrie "cat bird cat bird cat bird cat bird" 16).map
        (fun img => img.RGBAAt 5 5) = some ⟨3, 3, 3, 255⟩ ∧
    process sampleEnv overlapTrie "cat bird cat bird cat bird cat bird" 16 ≠
      process sampleEnvRev overlapTrie "cat bird cat bird cat bird cat bird" 16 := by
  have h1 : (process sampleEnv overlapTrie "cat bird cat bird cat bird cat bird" 16).map
      (fun img => img.RGBAAt 5 5) = some ⟨4, 4, 4, 255⟩ := by decide
  have h2 : (process sampleEnvRev overlapTrie "cat bird cat bird cat bird cat bird" 16).map
      (fun img => img.RGBAAt 5 5) = some ⟨3, 3, 3, 255⟩ := by decide
  refine ⟨sampleEnv_sameLibrary, ⟨sampleEnv_rangeOK, sampleEnv_sortOK⟩,
    ⟨sampleEnvRev_rangeOK, sampleEnvRev_sortOK⟩, h1, h2, fun heq => ?_⟩
  rw [heq, h2] at h1
  revert h1
  decide

/-- C14 (amended). Two runs of the pipeline on the same dictionary, document
and resolution, with the same library functions, produce identical canvases
whatever order the word map is visited in and however the sort arranges
texels of equal count, provided that any two output texels of equal count
whose blocks meet in a pixel of the canvas have the same colour. -/
theorem process_deterministic (env1 env2 : Env) (hlib : Env.SameLibrary env1 env2)
    (hr1 : env1.RangeOK) (hs1 : env1.SortOK) (hr2 : env2.RangeOK) (hs2 : env2.SortOK)
    (trie : Trie) (dat : String) (res : Int)
    (hov : ∀ a ∈ countTexel env1 trie (processTexels env1 (loadArticle dat)),
      ∀ b ∈ countTexel env1 trie (processTexels env1 (loadArticle dat)),
      a.count = b.count →
      ∀ m n : Int, 0 ≤ m → m < res → 0 ≤ n → n < res →
      blockCovers env1 res a m n = true → blockCovers env1 res b m n = true →
      paintColor a = paintColor b) :
    process env2 trie dat res = process env1 trie dat res := by
  obtain ⟨hcase, hhash, hsqrt, hscale, _⟩ := hlib
  show paintImage env2 (countTexel env2 trie (processTexels env2 (loadArticle dat))) res =
    paintImage env1 (countTexel env1 trie (processTexels env1 (loadArticle dat))) res
  rw [paintImage_congr env1 env2 hsqrt hscale,
    processTexels_congr env1 env2 hcase]
  have hmem : ∀ t, t ∈ countTexel env1 trie (processTexels env1 (loadArticle dat)) ↔
      t ∈ countTexel env2 trie (processTexels env1 (loadArticle dat)) := by
    intro t
    rw [mem_countTexel env1 hr1 hs1, mem_countTexel env2 hr2 hs2]
    simp only [resolveOne_congr env1 env2 hhash]
  have hp1 : (countTexel env1 trie (processTexels env1 (loadArticle dat))).Pairwise
      (fun a b => b.count ≤ a.count) := isSorted_reverse_pairwise _ (hs1 _).2
  have hp2 : (countTexel env2 trie (processTexels env1 (loadArticle dat))).Pairwise
      (fun a b => b.count ≤ a.count) := isSorted_reverse_pairwise _ (hs2 _).2
  exact paintImage_order_irrelevant env1 res _ _ hmem hp1 hp2 hov

theorem sample_distinct_counts :
    ∀ a ∈ countTexel sampleEnv sampleTrie
        (processTexels sampleEnv (loadArticle "cat cat cat cat dog")),
    ∀ b ∈ countTexel sampleEnv sampleTrie
        (processTexels sampleEnv (loadArticle "cat cat cat cat dog")),
    a.count = b.count →
    ∀ m n : Int, 0 ≤ m → m < 16 → 0 ≤ n → n < 16 →
    blockCovers sampleEnv 16 a m n = true → blockCovers sampleEnv 16 b m n = true →
    paintColor a = paintColor b := by
  have hdist : ∀ a ∈ countTexel sampleEnv sampleTrie
      (processTexels sampleEnv (loadArticle "cat cat cat cat dog")),
      ∀ b ∈ countTexel sampleEnv sampleTrie
        (processTexels sampleEnv (loadArticle "cat cat cat cat dog")),
      a.count = b.count → a = b := by decide
  intro a ha b hb hab m n _ _ _ _ _ _
  rw [hdist a ha b hb hab]

/-- Witness for C14 (amended): the document "cat cat cat cat dog", whose two
words have different counts, under the two visiting orders. -/
theorem process_deterministic_witness :
    (Env.SameLibrary sampleEnv sampleEnvRev ∧ sampleEnv.RangeOK ∧ sampleEnv.SortOK ∧
      sampleEnvRev.RangeOK ∧ sampleEnvRev.SortOK ∧
      ∀ a ∈ countTexel sampleEnv sampleTrie
          (processTexels sampleEnv (loadArticle "cat cat cat cat dog")),
      ∀ b ∈ countTexel sampleEnv sampleTrie
          (processTexels sampleEnv (loadArticle "cat cat cat cat dog")),
      a.count = b.count →
      ∀ m n : Int, 0 ≤ m → m < 16 → 0 ≤ n → n < 16 →
      blockCovers sampleEnv 16 a m n = true → blockCovers sampleEnv 16 b m n = true →
      paintColor a = paintColor b) ∧
    process sampleEnvRev sampleTrie "cat cat cat cat dog" 16 =
      process sampleEnv sampleTrie "cat cat cat cat dog" 16 :=
  ⟨⟨sampleEnv_sameLibrary, sampleEnv_rangeOK, sampleEnv_sortOK, sampleEnvRev_rangeOK,
      sampleEnvRev_sortOK, sample_distinct_counts⟩,
    process_deterministic sampleEnv sampleEnvRev sampleEnv_sameLibrary sampleEnv_rangeOK
      sampleEnv_sortOK sampleEnvRev_rangeOK sampleEnvRev_sortOK sampleTrie
      "cat cat cat cat dog" 16 sample_distinct_counts⟩

/-! ## Loading the dictionary -/

/-- C15 fails on the code: a line with fewer than two fields makes the
iteration of `loadTVector` panic at `str[1]`, whatever the parser, and a line
with two fields whose second one parses makes it panic at `str[2]`; the load
is aborted, where the claim has the line skipped.  A line with three fields
and an unparseable coordinate is skipped. -/
theorem loadTVector_short_line_panics :
    (∀ (env : Env) (st : List (String × point) × Int), loadStep env st "dog" = none) ∧
    (∀ (env : Env) (st : List (String × point) × Int), loadStep env st "" = none) ∧
    loadTVector sampleEnv ["cat 1 2", "dog", "bird 4 5"] = none ∧
    loadTVector sampleEnv ["cat 1 2", "dog 7", "bird 4 5"] = none ∧
    loadTVector sampleEnv ["cat 1 2", "dog x 3", "bird 4 5"] =
      some ([("cat", ⟨⟨1⟩, ⟨2⟩⟩), ("bird", ⟨⟨4⟩, ⟨5⟩⟩)], 2) := by
  refine ⟨fun _ _ => rfl, fun _ _ => rfl, ?_, ?_, ?_⟩ <;> decide

/-! ## One texel per word, bounds on the position signal -/

theorem filterMap_word_sublist (f : texel → Option texel)
    (hf : ∀ v t, f v = some t → t.word = v.word) (l : List texel) :
    ((l.filterMap f).map (fun t => t.word)).Sublist (l.map (fun t => t.word)) := by
  induction l with
  | nil => simp
  | cons v rest ih =>
    cases hv : f v with
    | none =>
      rw [List.filterMap_cons_none hv, List.map_cons]
      exact ih.cons _
    | some t =>
      rw [List.filterMap_cons_some hv, List.map_cons, List.map_cons, hf v t hv]
      exact ih.cons₂ _

/-- No two texels of the output of `countTexel` carry the same word. -/
theorem countTexel_words_nodup (env : Env) (hr : env.RangeOK) (hs : env.SortOK)
    (trie : Trie) (texs : List texel) :
    ((countTexel env trie texs).map (fun t => t.word)).Nodup := by
  show ((env.sortSort (sort.Reverse texels.Less)
    (resolveLoop env trie (aggregate texs)).1).map (fun t => t.word)).Nodup
  rw [((hs _).1.map _).nodup_iff, resolveLoop_fst]
  apply (filterMap_word_sublist _
    (fun v t h => (resolveOne_word env trie v t h).1) _).nodup
  have hwf := aggregate_wf texs
  have hkeys : (env.mapRange (aggregate texs)).map Prod.fst =
      ((env.mapRange (aggregate texs)).map Prod.snd).map (fun t => t.word) := by
    rw [List.map_map]
    apply List.map_congr_left
    intro p hp
    exact (hwf.2 p ((hr _).mem_iff.mp hp)).symm
  rw [← hkeys, ((hr _).map _).nodup_iff]
  exact hwf.1

/-- C16. For every input list of texels, the output of `countTexel` holds at
most one texel per word: no two texels of the output carry the same word, and
every word of the output is the word of some input texel. -/
theorem countTexel_one_per_word (env : Env) (hr : env.RangeOK) (hs : env.SortOK)
    (trie : Trie) (texs : List texel) :
    ((countTexel env trie texs).map (fun t => t.word)).Nodup ∧
    ∀ t ∈ countTexel env trie texs, ∃ x ∈ texs, x.word = t.word := by
  refine ⟨countTexel_words_nodup env hr hs trie texs, fun t ht => ?_⟩
  obtain ⟨v, hv, _, _⟩ := mem_countTexel_word env hr hs trie texs t ht
  exact (aggregate_isSome texs t.word).mp (by rw [hv]; rfl)

/-- Witness for C16: the texels of "cat", "dig", "zzz", "cat". -/
theorem countTexel_one_per_word_witness :
    (sampleEnv.RangeOK ∧ sampleEnv.SortOK) ∧
    (((countTexel sampleEnv sampleTrie catDigTexels).map (fun t => t.word)).Nodup ∧
    ∀ t ∈ countTexel sampleEnv sampleTrie catDigTexels,
      ∃ x ∈ catDigTexels, x.word = t.word) :=
  ⟨⟨sampleEnv_rangeOK, sampleEnv_sortOK⟩,
    countTexel_one_per_word sampleEnv sampleEnv_rangeOK sampleEnv_sortOK sampleTrie
      catDigTexels⟩

theorem foldStep_seq_bounded (m : GoMap) (seen : List texel) (t : texel)
    (ht : 0 ≤ t.seq ∧ t.seq < 4611686018427387904)
    (hseen : ∀ x ∈ seen, x.seq < 4611686018427387904)
    (hm : ∀ k v, GoMap.find m k = some v →
      0 ≤ v.seq ∧ ∃ x ∈ seen, x.word = k ∧ v.seq ≤ x.seq) :
    ∀ k v, GoMap.find (foldStep m t) k = some v →
      0 ≤ v.seq ∧ ∃ x ∈ seen ++ [t], x.word = k ∧ v.seq ≤ x.seq := by
  intro k v hv
  by_cases hk : k = t.word
  · subst hk
    rw [foldStep_find_same] at hv
    have hv' : v = foldRecord m t := (Option.some.inj hv).symm
    subst hv'
    cases hold : GoMap.find m t.word with
    | none =>
      have hseq : (foldRecord m t).seq = t.seq / 2 := by
        simp only [foldRecord, GoMap.get, hold, Option.getD_none, texel.zero, addInt_zero]
        exact Int.tdiv_eq_ediv ht.1 (by decide)
      rw [hseq]
      refine ⟨by omega, t, by simp, rfl, by omega⟩
    | some o =>
      obtain ⟨ho, x, hx, hxw, hxs⟩ := hm t.word o hold
      have hxb := hseen x hx
      have hseq : (foldRecord m t).seq = (t.seq + o.seq) / 2 := by
        simp only [foldRecord, GoMap.get, hold, Option.getD_some]
        rw [addInt_eq _ _ (by omega) (by omega)]
        exact Int.tdiv_eq_ediv (add_nonneg ht.1 ho) (by decide)
      rw [hseq]
      refine ⟨by omega, ?_⟩
      by_cases hle : o.seq ≤ t.seq
      · exact ⟨t, by simp, rfl, by omega⟩
      · exact ⟨x, List.mem_append_left _ hx, hxw, by omega⟩
  · rw [foldStep_find_other m t k hk] at hv
    obtain ⟨h0, x, hx, hxw, hxs⟩ := hm k v hv
    exact ⟨h0, x, List.mem_append_left _ hx, hxw, hxs⟩

theorem foldl_seq_bounded (texs : List texel) (m : GoMap) (seen : List texel)
    (hpos : ∀ x ∈ texs, 0 ≤ x.seq ∧ x.seq < 4611686018427387904)
    (hseen : ∀ x ∈ seen, x.seq < 4611686018427387904)
    (hm : ∀ k v, GoMap.find m k = some v →
      0 ≤ v.seq ∧ ∃ x ∈ seen, x.word = k ∧ v.seq ≤ x.seq) :
    ∀ k v, GoMap.find (texs.foldl foldStep m) k = some v →
      0 ≤ v.seq ∧ ∃ x ∈ seen ++ texs, x.word = k ∧ v.seq ≤ x.seq := by
  induction texs generalizing m seen with
  | nil => simpa using hm
  | cons t rest ih =>
    have htb := hpos t (List.mem_cons_self _ _)
    have hstep := foldStep_seq_bounded m seen t htb hseen hm
    have hseen' : ∀ x ∈ seen ++ [t], x.seq < 4611686018427387904 := by
      intro x hx
      rcases List.mem_append.mp hx with h | h
      · exact hseen x h
      · rw [List.mem_singleton.mp h]
        exact htb.2
    have := ih (foldStep m t) (seen ++ [t])
      (fun x hx => hpos x (List.mem_cons_of_mem _ hx)) hseen' hstep
    simpa using this

/-- C17, as stated, fails: two texels of "cat" with the non-negative position
signal `2^63 - 1` give an output texel with the negative position signal
`-2305843009213693953`, because the sum in `(t.seq + words[t.word].seq) / 2`
wraps around. -/
theorem countTexel_seq_counterexample :
    (∀ x ∈ [bigCat, bigCat], 0 ≤ x.seq) ∧
    countTexel sampleEnv sampleTrie [bigCat, bigCat] =
      [{ word := "cat", count := 2, seq := -2305843009213693953,
         coord := ⟨⟨1⟩, ⟨2⟩⟩, color := [3, 3, 3] }] ∧
    ¬ ∀ t ∈ countTexel sampleEnv sampleTrie [bigCat, bigCat], 0 ≤ t.seq := by
  decide

/-- C17 (amended). For every input list of texels whose position signals all
lie in `0 ≤ seq < 2^62`, so that no sum of two of them overflows an `int`,
every texel of the output of `countTexel` has a position signal between 0 and
the position signal of some input texel of its word, hence at most the
largest one; so the argument of the square root in `drawArea` is not
negative. -/
theorem countTexel_seq_bounds (env : Env) (hr : env.RangeOK) (hs : env.SortOK)
    (trie : Trie) (texs : List texel)
    (hpos : ∀ x ∈ texs, 0 ≤ x.seq ∧ x.seq < 4611686018427387904) :
    ∀ t ∈ countTexel env trie texs,
      0 ≤ t.seq ∧ ∃ x ∈ texs, x.word = t.word ∧ t.seq ≤ x.seq := by
  intro t ht
  obtain ⟨v, hv, _, hres⟩ := mem_countTexel_word env hr hs trie texs t ht
  have hb := foldl_seq_bounded texs [] [] hpos (fun x hx => by simp at hx)
    (fun k v h => by simp [GoMap.find] at h) t.word v hv
  rw [(resolveOne_word env trie v t hres).2.2]
  simpa using hb

/-- Witness for C17 (amended): the texels of "cat", "dig", "zzz", "cat", with
position signals 0 to 3. -/
theorem countTexel_seq_bounds_witness :
    (sampleEnv.RangeOK ∧ sampleEnv.SortOK ∧
      ∀ x ∈ catDigTexels, 0 ≤ x.seq ∧ x.seq < 4611686018427387904) ∧
    ∀ t ∈ countTexel sampleEnv sampleTrie catDigTexels,
      0 ≤ t.seq ∧ ∃ x ∈ catDigTexels, x.word = t.word ∧ t.seq ≤ x.seq :=
  ⟨⟨sampleEnv_rangeOK, sampleEnv_sortOK, by decide⟩,
    countTexel_seq_bounds sampleEnv sampleEnv_rangeOK sampleEnv_sortOK sampleTrie
      catDigTexels (by decide)⟩

/-! ## Occurrence indices -/

theorem foldl_processStep_enum (words : List String) (acc : List (String × Int)) (i : Nat) :
    words.foldl processStep (acc, (i : Int)) =
      (acc ++ ((words.filter (fun w => decide (¬ (w = " " ∨ w = "\n" ∨ w = "")))).enumFrom i).map
          (fun p => (p.2, (p.1 : Int))),
        ((i + (words.filter
          (fun w => decide (¬ (w = " " ∨ w = "\n" ∨ w = "")))).length : Nat) : Int)) := by
  induction words generalizing acc i with
  | nil => simp
  | cons w rest ih =>
    rw [List.foldl_cons]
    by_cases hw : w = " " ∨ w = "\n" ∨ w = ""
    · have hf : List.filter (fun w => decide (¬ (w = " " ∨ w = "\n" ∨ w = ""))) (w :: rest) =
          List.filter (fun w => decide (¬ (w = " " ∨ w = "\n" ∨ w = ""))) rest := by
        rw [List.filter_cons, if_neg]
        rw [decide_eq_true_eq]
        exact fun hn => hn hw
      rw [processStep, if_pos hw, ih, hf]
    · have hf : List.filter (fun w => decide (¬ (w = " " ∨ w = "\n" ∨ w = ""))) (w :: rest) =
          w :: List.filter (fun w => decide (¬ (w = " " ∨ w = "\n" ∨ w = ""))) rest := by
        rw [List.filter_cons, if_pos]
        rw [decide_eq_true_eq]
        exact hw
      rw [processStep, if_neg hw, hf]
      have hcast : ((i : Int) + 1) = ((i + 1 : Nat) : Int) := by push_cast; rfl
      simp only [hcast]
      rw [ih]
      simp only [List.enumFrom_cons, List.map_cons, List.append_assoc, List.singleton_append,
        List.length_cons]
      congr 2
      omega

/-- C18. For every token list, `process` gives the occurrence indices
0, 1, 2, ... consecutively and in document order to exactly the tokens it
keeps: the sequence of its calls of `toTexel` is the sequence of the kept
tokens, each paired with its position among the kept tokens, so the `k`-th
kept token is given index `k` and a discarded token uses up no index. -/
theorem toTexelCalls_enum (words : List String) :
    toTexelCalls words =
      ((words.filter (fun w => decide (¬ (w = " " ∨ w = "\n" ∨ w = "")))).enum).map
        (fun p => (p.2, (p.1 : Int))) ∧
    ∀ k : Nat, (toTexelCalls words)[k]? =
      ((words.filter (fun w => decide (¬ (w = " " ∨ w = "\n" ∨ w = ""))))[k]?).map
        (fun w => (w, (k : Int))) := by
  have h : toTexelCalls words =
      ((words.filter (fun w => decide (¬ (w = " " ∨ w = "\n" ∨ w = "")))).enum).map
        (fun p => (p.2, (p.1 : Int))) := by
    unfold toTexelCalls
    have := foldl_processStep_enum words [] 0
    simp only [Nat.cast_zero, List.nil_append] at this
    rw [this]
    rfl
  refine ⟨h, fun k => ?_⟩
  rw [h, List.getElem?_map, List.getElem?_enum]
  cases (words.filter (fun w => decide (¬ (w = " " ∨ w = "\n" ∨ w = ""))))[k]? <;> rfl

end Texproj
